import Mathlib

set_option maxRecDepth 400000

/-!
Shallow embedding of the particle-life simulation core
(`src/src/lib.rs`, `Particles::update`) over exact rational arithmetic.

Modelling conventions:
* `f32` scalars are embedded as `ℚ` with exact arithmetic; `cgmath::Vector3<f32>`
  becomes `Vec3 := ℚ × ℚ × ℚ`.
* `f32::sqrt` is embedded as `ratSqrt`, which is exact whenever the argument is
  a square of a rational; all concrete evaluations in this development happen
  at such inputs.
* Rust panics (the `assert!`, slice-index-out-of-bounds on the attraction
  matrix, and remainder by a zero hash-table length) are embedded as `none`
  in `Option`-returning functions.
* The rayon parallel passes are embedded as sequential folds in array order;
  the atomic counter discipline of the source makes the bucket boundaries and
  bucket contents independent of thread interleaving, and rational addition is
  commutative, so the canonical sequential schedule is a faithful model.
* `std::collections::hash_map::DefaultHasher` is SipHash-1-3 with both keys 0;
  it is embedded bit-exactly below (`sipHash13`) on `ℕ` with explicit
  reduction modulo `2 ^ 64`.
-/

/-- Vector of three rationals, modelling `cgmath::Vector3<f32>`. -/
abbrev Vec3 : Type := ℚ × ℚ × ℚ

namespace Vec3

/-- The x component. -/
def x (v : Vec3) : ℚ := v.1

/-- The y component. -/
def y (v : Vec3) : ℚ := v.2.1

/-- The z component. -/
def z (v : Vec3) : ℚ := v.2.2

/-- Constructor, modelling `cgmath::vec3`. -/
def mk3 (a b c : ℚ) : Vec3 := (a, b, c)

/-- Scalar multiplication on the right, modelling `v * s` on `Vector3<f32>`. -/
def smul (v : Vec3) (s : ℚ) : Vec3 := (v.1 * s, v.2.1 * s, v.2.2 * s)

/-- Division by a scalar, modelling `v / s` on `Vector3<f32>`. -/
def sdiv (v : Vec3) (s : ℚ) : Vec3 := (v.1 / s, v.2.1 / s, v.2.2 / s)

/-- Squared length, modelling `InnerSpace::magnitude2`. -/
def magnitude2 (v : Vec3) : ℚ := v.1 * v.1 + v.2.1 * v.2.1 + v.2.2 * v.2.2

end Vec3

/-! ### SipHash-1-3 (`std::collections::hash_map::DefaultHasher` with zero keys) -/

/-- Modulus for 64-bit wrapping arithmetic. -/
def m64 : ℕ := 2 ^ 64

/-- Wrapping 64-bit addition. -/
def wadd64 (a b : ℕ) : ℕ := (a + b) % m64

/-- Rotate a 64-bit word left by `r` bits. -/
def rotl64 (a r : ℕ) : ℕ := ((a <<< r) % m64) ||| (a >>> (64 - r))

/-- State of the SipHash mixer: the four 64-bit lanes `v0 v1 v2 v3`. -/
structure SipState where
  v0 : ℕ
  v1 : ℕ
  v2 : ℕ
  v3 : ℕ

/-- One SIPROUND, as in `core/src/hash/sip.rs`. -/
def sipRound (s : SipState) : SipState :=
  let v0 := wadd64 s.v0 s.v1
  let v1 := rotl64 s.v1 13
  let v1 := v1 ^^^ v0
  let v0 := rotl64 v0 32
  let v2 := wadd64 s.v2 s.v3
  let v3 := rotl64 s.v3 16
  let v3 := v3 ^^^ v2
  let v0 := wadd64 v0 v3
  let v3 := rotl64 v3 21
  let v3 := v3 ^^^ v0
  let v2 := wadd64 v2 v1
  let v1 := rotl64 v1 17
  let v1 := v1 ^^^ v2
  let v2 := rotl64 v2 32
  ⟨v0, v1, v2, v3⟩

/-- Absorb one 8-byte message block: `v3 ^= m; SIPROUND; v0 ^= m`
(SipHash-1-3 runs one compression round per block). -/
def sipBlock (s : SipState) (m : ℕ) : SipState :=
  let s := { s with v3 := s.v3 ^^^ m }
  let s := sipRound s
  { s with v0 := s.v0 ^^^ m }

/-- SipHash-1-3 with keys `(0, 0)` of a message of exactly three 8-byte
little-endian words, as produced by hashing three `isize` values with
`DefaultHasher`.  The final block holds the message length `24` in the top
byte; finalization xors `0xff` into `v2` and runs three rounds. -/
def sipHash13 (m0 m1 m2 : ℕ) : ℕ :=
  let s : SipState :=
    ⟨0x736f6d6570736575, 0x646f72616e646f6d, 0x6c7967656e657261, 0x7465646279746573⟩
  let s := sipBlock s m0
  let s := sipBlock s m1
  let s := sipBlock s m2
  let s := sipBlock s (24 <<< 56)
  let s := { s with v2 := s.v2 ^^^ 0xff }
  let s := sipRound (sipRound (sipRound s))
  s.v0 ^^^ s.v1 ^^^ s.v2 ^^^ s.v3

/-- Two's-complement encoding of an `isize` as an unsigned 64-bit word. -/
def u64ofInt (z : ℤ) : ℕ := (z % (2 ^ 64 : ℤ)).toNat

/-- Integer cell coordinates. -/
abbrev ICell : Type := ℤ × ℤ × ℤ

/-- The `hash` function of `Particles::update`: feed the three cell
coordinates through `DefaultHasher` and take the result as `usize`. -/
def hashCell (c : ICell) : ℕ :=
  sipHash13 (u64ofInt c.1) (u64ofInt c.2.1) (u64ofInt c.2.2)

/-! ### Cell coordinates -/

/-- Truncation of a rational toward zero, modelling Rust's `f32 as isize`
cast (which rounds toward zero). -/
def truncQ (q : ℚ) : ℤ := Int.tdiv q.num (q.den : ℤ)

/-- The `cell_coord` closure of `Particles::update`:
`(v / particle_effect_radius) as isize`, per axis. -/
def cellCoord (radius : ℚ) (v : Vec3) : ICell :=
  (truncQ (v.1 / radius), truncQ (v.2.1 / radius), truncQ (v.2.2 / radius))

/-! ### The particle data model -/

/-- Shallow embedding of the `Particle` struct. -/
structure Particle where
  position : Vec3
  velocity : Vec3
  id : ℕ
deriving DecidableEq

instance : Inhabited Particle := ⟨⟨0, 0, 0⟩⟩

/-- Shallow embedding of the `Particles` struct (simulation state). -/
structure Particles where
  world_size : ℚ
  current_particles : List Particle
  previous_particles : List Particle
  id_count : ℕ
  attraction_matrix : List ℚ
  colors : List Vec3
  friction : ℚ
  force_scale : ℚ
  min_attraction_percentage : ℚ
  particle_effect_radius : ℚ
  solid_walls : Bool
  gravity : Vec3
deriving DecidableEq

/-! ### Spatial index builder (count, prefix-sum, scatter) -/

/-- Bucket of a cell: `hash(cell) % hash_table_length`.  Rust's `%` with a
zero divisor panics, embedded as `none`. -/
def bucketOf (n : ℕ) (c : ICell) : Option ℕ :=
  if n = 0 then none else some (hashCell c % n)

/-- Option-valued fold, the sequential embedding of the fallible passes. -/
def foldlO {α β : Type} (f : β → α → Option β) : β → List α → Option β
  | b, [] => some b
  | b, a :: l => match f b a with
    | none => none
    | some b' => foldlO f b' l

/-- Option-valued map. -/
def mapO {α β : Type} (f : α → Option β) : List α → Option (List β)
  | [] => some []
  | a :: l => match f a with
    | none => none
    | some b => match mapO f l with
      | none => none
      | some l' => some (b :: l')

/-- Count pass: one atomic increment per particle into a table of
`hash_table_length + 1` counters. -/
def countPass (radius : ℚ) (n : ℕ) (ps : List Particle) : Option (List ℕ) :=
  foldlO
    (fun tbl p =>
      match bucketOf n (cellCoord radius p.position) with
      | none => none
      | some b => some (tbl.set b (tbl.getD b 0 + 1)))
    (List.replicate (n + 1) 0) ps

/-- Prefix-sum pass: `for i in 1..len { tbl[i] += tbl[i-1] }`. -/
def prefixPass (tbl : List ℕ) : List ℕ :=
  (List.range tbl.length).foldl
    (fun t i => if i = 0 then t else t.set i (t.getD i 0 + t.getD (i - 1) 0))
    tbl

/-- Scatter pass: particle number `j` (in array order) atomically performs
`fetch_sub(1)` on its bucket counter (which returns the pre-decrement value
`v`) and stores `j` at slot `v - 1` of the particle-index array. -/
def scatterAux (radius : ℚ) (n : ℕ) (j : ℕ) :
    List Particle → List ℕ × List ℕ → Option (List ℕ × List ℕ)
  | [], st => some st
  | p :: ps, (tbl, idxs) =>
    match bucketOf n (cellCoord radius p.position) with
    | none => none
    | some b =>
      let v := tbl.getD b 0
      scatterAux radius n (j + 1) ps (tbl.set b (v - 1), idxs.set (v - 1) j)

/-- The whole index builder: count, prefix-sum, scatter.  Returns the
post-scatter offset table (length `n + 1`) and the particle-index array
(length `n`). -/
def buildIndex (radius : ℚ) (ps : List Particle) : Option (List ℕ × List ℕ) :=
  let n := ps.length
  match countPass radius n ps with
  | none => none
  | some counts =>
    let offsets := prefixPass counts
    scatterAux radius n 0 ps (offsets, List.replicate n 0)

/-! ### Force law and pairwise contribution -/

/-- Fueled binary-search integer square root; with fuel `f` it computes the
integer square root of any `n < 2 ^ (2 * f)` by deciding one result bit per
step. -/
def isqrtAux (n : ℕ) : ℕ → ℕ → ℕ
  | 0, acc => acc
  | fuel + 1, acc =>
    let c := acc + (1 <<< fuel)
    if c * c ≤ n then isqrtAux n fuel c else isqrtAux n fuel acc

/-- Integer square root, exact on squares below `2 ^ 128`. -/
def isqrt (n : ℕ) : ℕ := isqrtAux n 64 0

/-- Exact rational square root, modelling `f32::sqrt`; exact whenever
numerator and denominator are perfect squares, which holds at every input
this development evaluates it on. -/
def ratSqrt (q : ℚ) : ℚ :=
  (isqrt q.num.toNat : ℚ) / (isqrt q.den : ℚ)

/-- The `force` closure of `Particles::update`, verbatim: both branch
thresholds compare the **argument** (the raw distance passed at the call
site) against `min_attraction_percentage` and `1.0`. -/
def forceLaw (beta : ℚ) (distance attraction : ℚ) : ℚ :=
  if distance < beta then
    distance / beta - 1
  else if beta < distance ∧ distance < 1 then
    attraction * (1 - |2 * distance - 1 - beta| / (1 - beta))
  else 0

/-- One candidate-neighbor body of the innermost loop: the distance-gated
force contribution of `other` on `p` under world offset `offset`.  `none`
models the out-of-bounds panic of `attraction_matrix[...]`. -/
def pairForce (s : Particles) (p other : Particle) (offset : Vec3) : Option Vec3 :=
  let rel := other.position - (p.position + offset)
  let d2 := rel.magnitude2
  if 0 < d2 ∧ d2 < s.particle_effect_radius * s.particle_effect_radius then
    match s.attraction_matrix.get? (p.id * s.id_count + other.id) with
    | none => none
    | some a =>
      let dist := ratSqrt d2
      some ((rel.sdiv dist).smul (forceLaw s.min_attraction_percentage dist a))
  else some 0

/-- The 27 offsets `{-1,0,1}^3` in the source's loop order (x outermost,
then y, then z). -/
def offsets27 : List (ℤ × ℤ × ℤ) :=
  ([-1, 0, 1].flatMap fun a => [-1, 0, 1].flatMap fun b => [-1, 0, 1].map fun c => (a, b, c))

/-- Indices stored for bucket `b`: the slice
`particle_indices[hash_table[b] .. hash_table[b+1]]`. -/
def bucketSlice (tbl idxs : List ℕ) (b : ℕ) : List ℕ :=
  (idxs.drop (tbl.getD b 0)).take (tbl.getD (b + 1) 0 - tbl.getD b 0)

/-- The world-space translation of a periodic image offset. -/
def offsetVec (ws : ℚ) (o : ℤ × ℤ × ℤ) : Vec3 :=
  (Vec3.mk3 (o.1 : ℚ) (o.2.1 : ℚ) (o.2.2 : ℚ)).smul ws

/-- Innermost loop: fold the pairwise contributions of one bucket slice. -/
def scanSlice (s : Particles) (prev : List Particle) (p : Particle)
    (offset : Vec3) (slice : List ℕ) (acc : Vec3) : Option Vec3 :=
  foldlO
    (fun acc j =>
      match pairForce s p (prev.getD j default) offset with
      | none => none
      | some f => some (acc + f))
    acc slice

/-- Middle loop body: one neighboring cell, hashed to its bucket and its
slice scanned. -/
def scanCell (s : Particles) (tbl idxs : List ℕ) (prev : List Particle)
    (p : Particle) (offset : Vec3) (acc : Vec3) (cell' : ICell) : Option Vec3 :=
  match bucketOf prev.length cell' with
  | none => none
  | some b => scanSlice s prev p offset (bucketSlice tbl idxs b) acc

/-- Outer loop body: one periodic world image (the 27 neighboring cells of
the shifted position). -/
def scanOffset (s : Particles) (tbl idxs : List ℕ) (prev : List Particle)
    (p : Particle) (acc : Vec3) (o : ℤ × ℤ × ℤ) : Option Vec3 :=
  let offset := offsetVec s.world_size o
  let cell := cellCoord s.particle_effect_radius (p.position + offset)
  foldlO
    (fun acc (co : ℤ × ℤ × ℤ) =>
      scanCell s tbl idxs prev p offset acc
        (cell.1 + co.1, cell.2.1 + co.2.1, cell.2.2 + co.2.2))
    acc offsets27

/-- Total force on particle `p`: iterate the 27 periodic world images, the
27 neighboring cells of each, the hash bucket slice of each cell, and
accumulate `pairForce`. -/
def totalForce (s : Particles) (tbl idxs : List ℕ) (prev : List Particle)
    (p : Particle) : Option Vec3 :=
  foldlO (scanOffset s tbl idxs prev p) 0 offsets27

/-! ### Velocity and position integration -/

/-- Velocity update: force and gravity integration followed by the
overshoot-guarded friction damping. -/
def updateVelocity (s : Particles) (ts : ℚ) (total_force : Vec3) (v0 : Vec3) : Vec3 :=
  let v := v0 + ((total_force.smul s.force_scale).smul s.particle_effect_radius).smul ts
  let v := v + s.gravity.smul ts
  let velocity_change := v.smul (s.friction * ts)
  if velocity_change.magnitude2 > v.magnitude2 then (0, 0, 0) else v - velocity_change

/-- Position update and per-axis boundary policy, verbatim from the source:
the six `if` statements run in order and each reads the position as already
modified by the previous ones.  Note the source's `+x` wall writes
`velocity.x = velocity.y.min(0.0)` and its `+y` wall writes
`velocity.y = velocity.x.min(0.0)`. -/
def updatePosition (s : Particles) (ts : ℚ) (pos0 vel0 : Vec3) : Vec3 × Vec3 :=
  let pos := pos0 + vel0.smul ts
  let vel := vel0
  let st := (pos, vel)
  let st :=
    if st.1.1 > s.world_size * (1/2) then
      if s.solid_walls then
        ((s.world_size * (1/2), st.1.2.1, st.1.2.2),
         (min st.2.2.1 0, st.2.2.1, st.2.2.2))
      else
        ((st.1.1 - s.world_size, st.1.2.1, st.1.2.2), st.2)
    else st
  let st :=
    if st.1.1 < -s.world_size * (1/2) then
      if s.solid_walls then
        ((-s.world_size * (1/2), st.1.2.1, st.1.2.2),
         (max st.2.1 0, st.2.2.1, st.2.2.2))
      else
        ((st.1.1 + s.world_size, st.1.2.1, st.1.2.2), st.2)
    else st
  let st :=
    if st.1.2.1 > s.world_size * (1/2) then
      if s.solid_walls then
        ((st.1.1, s.world_size * (1/2), st.1.2.2),
         (st.2.1, min st.2.1 0, st.2.2.2))
      else
        ((st.1.1, st.1.2.1 - s.world_size, st.1.2.2), st.2)
    else st
  let st :=
    if st.1.2.1 < -s.world_size * (1/2) then
      if s.solid_walls then
        ((st.1.1, -s.world_size * (1/2), st.1.2.2),
         (st.2.1, max st.2.2.1 0, st.2.2.2))
      else
        ((st.1.1, st.1.2.1 + s.world_size, st.1.2.2), st.2)
    else st
  let st :=
    if st.1.2.2 > s.world_size * (1/2) then
      if s.solid_walls then
        ((st.1.1, st.1.2.1, s.world_size * (1/2)),
         (st.2.1, st.2.2.1, min st.2.2.2 0))
      else
        ((st.1.1, st.1.2.1, st.1.2.2 - s.world_size), st.2)
    else st
  let st :=
    if st.1.2.2 < -s.world_size * (1/2) then
      if s.solid_walls then
        ((st.1.1, st.1.2.1, -s.world_size * (1/2)),
         (st.2.1, st.2.2.1, max st.2.2.2 0))
      else
        ((st.1.1, st.1.2.1, st.1.2.2 + s.world_size), st.2)
    else st
  st

/-- The per-particle body of the integration pass. -/
def updateParticle (s : Particles) (tbl idxs : List ℕ) (prev : List Particle)
    (ts : ℚ) (p : Particle) : Option Particle :=
  match totalForce s tbl idxs prev p with
  | none => none
  | some tf =>
    let vel := updateVelocity s ts tf p.velocity
    let (pos', vel') := updatePosition s ts p.position vel
    some { p with position := pos', velocity := vel' }

/-- Total, `getD`-based variant of `pairForce`: identical to the body of the
source's candidate-neighbor loop except that the `attraction_matrix` lookup
defaults to `0` instead of panicking.  Used to state refinement results;
`pairForce_eq_pairForceD` connects it to the authoritative `pairForce`
whenever the lookup is in bounds. -/
def pairForceD (s : Particles) (p other : Particle) (offset : Vec3) : Vec3 :=
  let rel := other.position - (p.position + offset)
  let d2 := rel.magnitude2
  if 0 < d2 ∧ d2 < s.particle_effect_radius * s.particle_effect_radius then
    let dist := ratSqrt d2
    (rel.sdiv dist).smul (forceLaw s.min_attraction_percentage dist
      (s.attraction_matrix.getD (p.id * s.id_count + other.id) 0))
  else 0

/-- Modelled from the spec: the brute-force O(N²) reference net force, which
"sums, over every other particle and every one of the 27 periodic image
offsets in `{-1,0,1}^3 * world_size`, the pairwise force contribution for
each pair with `0 < distance < particle_effect_radius`", each in-range pair
contributing exactly once. -/
def bruteForceRef (s : Particles) (parts : List Particle) (p : Particle) : Vec3 :=
  (offsets27.map (fun o =>
    (parts.map (fun other => pairForceD s p other (offsetVec s.world_size o))).sum)).sum

/-- Modelled from the spec: the per-pair contribution with the force law
evaluated at the normalized distance `r = distance / particle_effect_radius`
("`distance = sqrt(sqr_distance)`, normalized `r = distance /
particle_effect_radius`", "`total_force += normalize(relative) * f(r, ...)`"),
to be compared against the source-derived `pairForce`. -/
def specPairContrib (s : Particles) (p other : Particle) (offset : Vec3) : Vec3 :=
  let rel := other.position - (p.position + offset)
  let d2 := rel.magnitude2
  if 0 < d2 ∧ d2 < s.particle_effect_radius * s.particle_effect_radius then
    let dist := ratSqrt d2
    (rel.sdiv dist).smul (forceLaw s.min_attraction_percentage
      (dist / s.particle_effect_radius)
      (s.attraction_matrix.getD (p.id * s.id_count + other.id) 0))
  else 0

/-- Multiplicity with which the grid scan visits the bucket of a neighbor:
the number of cells in the scanned 3×3×3 neighborhood of `baseCell` whose
hash bucket (mod `n`) equals `b`. -/
def bucketMult (n : ℕ) (baseCell : ICell) (b : ℕ) : ℕ :=
  (offsets27.filter (fun co =>
    hashCell (baseCell.1 + co.1, baseCell.2.1 + co.2.1, baseCell.2.2 + co.2.2) % n = b)).length

/-- Shallow embedding of `Particles::update`.  `none` models a panic: the
`assert!` on `world_size`, an out-of-bounds `attraction_matrix` index, or a
remainder by a zero `hash_table_length` (never reachable, since an empty
particle list makes every per-particle pass vacuous). -/
def Particles.update (s : Particles) (ts : ℚ) : Option Particles :=
  if s.world_size ≥ 2 * s.particle_effect_radius then
    match buildIndex s.particle_effect_radius s.current_particles with
    | none => none
    | some (tbl, idxs) =>
      let prev := s.current_particles
      match mapO (updateParticle s tbl idxs prev ts) prev with
      | none => none
      | some nextParticles =>
        some { s with
          current_particles := nextParticles
          previous_particles := prev }
  else none

/-! ### Pure specification functions for the counting sort -/

/-- Hash-bucket key of each particle, in array order. -/
def keysOf (radius : ℚ) (n : ℕ) (ps : List Particle) : List ℕ :=
  ps.map (fun p => hashCell (cellCoord radius p.position) % n)

/-- Exclusive prefix sum of the bucket populations: the number of particles
whose key is below `b`. -/
def exclSum (ks : List ℕ) (b : ℕ) : ℕ :=
  ((List.range b).map (fun k => ks.count k)).sum

/-- Particle indices with key `b` among the first `j` particles, most recent
first (the scatter fills each bucket from its top downward). -/
def occList (ks : List ℕ) (j b : ℕ) : List ℕ :=
  ((List.range j).filter (fun i => ks.getD i 0 = b)).reverse

/-- The window `[lo, hi)` of a list. -/
def sliceOf (l : List ℕ) (lo hi : ℕ) : List ℕ := (l.drop lo).take (hi - lo)

/-- Key-driven restatement of the scatter pass; `scatterAux` reduces to it
once every bucket lookup succeeds. -/
def scatterK (j : ℕ) : List ℕ → List ℕ × List ℕ → List ℕ × List ℕ
  | [], st => st
  | k :: rest, (tbl, idxs) =>
    let v := tbl.getD k 0
    scatterK (j + 1) rest (tbl.set k (v - 1), idxs.set (v - 1) j)

/-- Inclusive prefix sum of the first `i + 1` entries of a table. -/
def pSum (tbl : List ℕ) (i : ℕ) : ℕ :=
  ((List.range (i + 1)).map (fun k => tbl.getD k 0)).sum

/-- The multiplicity-weighted brute-force net force: every pair is counted
once per scanned cell of the 3×3×3 neighborhood whose hash bucket collides
with the neighbor's bucket (`bucketMult`); with no intra-neighborhood bucket
collisions every multiplicity of an in-range pair is `1` and this coincides
with `bruteForceRef`. -/
def weightedRef (s : Particles) (prev : List Particle) (p : Particle) : Vec3 :=
  (offsets27.map (fun o =>
    ((List.range prev.length).map (fun j =>
      bucketMult prev.length
          (cellCoord s.particle_effect_radius (p.position + offsetVec s.world_size o))
          (hashCell (cellCoord s.particle_effect_radius
            (prev.getD j default).position) % prev.length) •
        pairForceD s p (prev.getD j default) (offsetVec s.world_size o))).sum)).sum

/-! ### Concrete configurations used in concrete evaluations -/

/-- Two particles of type 0 a quarter-unit apart at the centre of a
`world_size = 10`, `radius = 2`, `beta = 1/2` configuration. -/
def partA : Particle := ⟨(0, 0, 0), (0, 0, 0), 0⟩

/-- Second particle of the two-particle configuration. -/
def partB : Particle := ⟨(1/4, 0, 0), (0, 0, 0), 0⟩

/-- The two-particle configuration itself. -/
def cfg2 : Particles :=
  ⟨10, [partA, partB], [], 1, [1], [], 0, 1, 1/2, 2, false, (0, 0, 0)⟩

/-- A solid-walls configuration (only `world_size` and `solid_walls` matter
to `updatePosition`). -/
def cfgWalls : Particles :=
  ⟨10, [], [], 0, [], [], 0, 0, 0, 2, true, (0, 0, 0)⟩

/-- A configuration violating `attraction_matrix.len == id_count²`
(`0 ≠ 1`) with no particles. -/
def cfgBadMatrix : Particles :=
  ⟨4, [], [], 1, [], [], 0, 1, 1/2, 2, false, (0, 0, 0)⟩

/-- An empty configuration with valid geometry. -/
def cfgEmpty : Particles :=
  ⟨4, [], [], 1, [1], [], 0, 1, 1/2, 1, false, (0, 0, 0)⟩

/-- A configuration breaching the `world_size >= 2 * particle_effect_radius`
contract. -/
def cfgNarrow : Particles :=
  ⟨3, [], [], 1, [1], [], 0, 1, 1/2, 2, false, (0, 0, 0)⟩

/-- A configuration with friction `1/2` and zero gravity, for the damping
claim. -/
def cfgFrict : Particles :=
  ⟨10, [], [], 1, [1], [], 1/2, 1, 1/2, 2, false, (0, 0, 0)⟩

/-- First particle of `cfg2` after one tick. -/
def partA2 : Particle := ⟨(-1, 0, 0), (-11, 0, 0), 0⟩

/-- Second particle of `cfg2` after one tick. -/
def partB2 : Particle := ⟨(5/4, 0, 0), (11, 0, 0), 0⟩

/-- The state of `cfg2` after one tick of length `1`. -/
def cfg2next : Particles :=
  ⟨10, [partA2, partB2], [partA, partB], 1, [1], [], 0, 1, 1/2, 2, false, (0, 0, 0)⟩

/-! ### General lemmas -/

theorem magnitude2_nonneg (v : Vec3) : 0 ≤ v.magnitude2 := by
  have h1 : 0 ≤ v.1 * v.1 := mul_self_nonneg _
  have h2 : 0 ≤ v.2.1 * v.2.1 := mul_self_nonneg _
  have h3 : 0 ≤ v.2.2 * v.2.2 := mul_self_nonneg _
  unfold Vec3.magnitude2; linarith

theorem magnitude2_eq_zero_iff (v : Vec3) : v.magnitude2 = 0 ↔ v = 0 := by
  constructor
  · intro h
    have h1 : 0 ≤ v.1 * v.1 := mul_self_nonneg _
    have h2 : 0 ≤ v.2.1 * v.2.1 := mul_self_nonneg _
    have h3 : 0 ≤ v.2.2 * v.2.2 := mul_self_nonneg _
    unfold Vec3.magnitude2 at h
    have e1 : v.1 * v.1 = 0 := by linarith
    have e2 : v.2.1 * v.2.1 = 0 := by linarith
    have e3 : v.2.2 * v.2.2 = 0 := by linarith
    have z1 := mul_self_eq_zero.mp e1
    have z2 := mul_self_eq_zero.mp e2
    have z3 := mul_self_eq_zero.mp e3
    show (v.1, v.2.1, v.2.2) = ((0 : ℚ), (0 : ℚ), (0 : ℚ))
    rw [z1, z2, z3]
  · intro h; subst h; simp [Vec3.magnitude2]

/-- An update on a state with no particles succeeds and empties both
buffers. -/
theorem update_nil (s : Particles) (ts : ℚ)
    (hw : s.world_size ≥ 2 * s.particle_effect_radius)
    (hc : s.current_particles = []) :
    s.update ts = some { s with current_particles := [], previous_particles := [] } := by
  unfold Particles.update
  rw [if_pos hw, hc]
  rfl

theorem truncQ_neg (q : ℚ) : truncQ (-q) = -truncQ q := by
  unfold truncQ
  rw [Rat.num_neg_eq_neg_num, Rat.den_neg_eq_den, Int.neg_tdiv]

theorem truncQ_of_nonneg {q : ℚ} (h : 0 ≤ q) : truncQ q = ⌊q⌋ := by
  unfold truncQ
  rw [Int.tdiv_eq_ediv (Rat.num_nonneg.mpr h) (by positivity), Rat.floor_def]

theorem truncQ_eq (q : ℚ) : truncQ q = if 0 ≤ q then ⌊q⌋ else -⌊-q⌋ := by
  split_ifs with h
  · exact truncQ_of_nonneg h
  · rw [← truncQ_of_nonneg (by linarith : (0:ℚ) ≤ -q), ← truncQ_neg, neg_neg]

/-! ### Claim C4 — cell coordinate rounding -/

/-- C4 counterexample: the cell coordinate of the position `(-1, 0, 0)` at
`particle_effect_radius = 2` is `(0, 0, 0)` — the cast truncates toward
zero — whereas the claimed `floor(-1/2)` is `-1`. -/
theorem claim_C4_counterexample :
    cellCoord 2 ((-1 : ℚ), 0, 0) = ((0 : ℤ), 0, 0) ∧
    ⌊((-1 : ℚ)) / 2⌋ = -1 ∧ ((0 : ℤ)) ≠ -1 := by
  refine ⟨by with_unfolding_all rfl, ?_, by decide⟩
  rw [show ((-1 : ℚ)) / 2 = -(1/2) by ring, Int.floor_neg,
    show ⌈(1 : ℚ)/2⌉ = 1 from by rw [Int.ceil_eq_iff]; norm_num]

/-- C4 (amended): the `cell_coord` closure rounds each axis toward zero
(`as isize` truncation): it returns `floor(p/r)` on the nonnegative side and
`-floor(-p/r)` on the negative side, so a coordinate in
`(-particle_effect_radius, 0)` maps to cell `0`, not `-1`. -/
theorem claim_C4 (radius : ℚ) (v : Vec3) (h : 0 < radius) :
    cellCoord radius v =
      ((if 0 ≤ v.1 / radius then ⌊v.1 / radius⌋ else -⌊-(v.1 / radius)⌋),
       (if 0 ≤ v.2.1 / radius then ⌊v.2.1 / radius⌋ else -⌊-(v.2.1 / radius)⌋),
       (if 0 ≤ v.2.2 / radius then ⌊v.2.2 / radius⌋ else -⌊-(v.2.2 / radius)⌋)) ∧
    (-radius < v.1 → v.1 < 0 → (cellCoord radius v).1 = 0) := by
  constructor
  · unfold cellCoord
    rw [truncQ_eq, truncQ_eq, truncQ_eq]
  · intro h1 h2
    show truncQ (v.1 / radius) = 0
    have hneg : v.1 / radius < 0 := div_neg_of_neg_of_pos h2 h
    rw [truncQ_eq, if_neg (not_le.mpr hneg), neg_eq_zero, Int.floor_eq_zero_iff,
      Set.mem_Ico]
    refine ⟨by linarith, ?_⟩
    rw [← neg_div]
    exact (div_lt_one h).mpr (by linarith)

theorem claim_C4_witness :
    0 < (2 : ℚ) ∧
    (cellCoord 2 ((-1 : ℚ), 0, 0) =
      ((if 0 ≤ (-1 : ℚ) / 2 then ⌊(-1 : ℚ) / 2⌋ else -⌊-((-1 : ℚ) / 2)⌋),
       (if 0 ≤ (0 : ℚ) / 2 then ⌊(0 : ℚ) / 2⌋ else -⌊-((0 : ℚ) / 2)⌋),
       (if 0 ≤ (0 : ℚ) / 2 then ⌊(0 : ℚ) / 2⌋ else -⌊-((0 : ℚ) / 2)⌋)) ∧
     (-2 < ((-1 : ℚ), (0 : ℚ), (0 : ℚ)).1 → ((-1 : ℚ), (0 : ℚ), (0 : ℚ)).1 < 0 →
       (cellCoord 2 ((-1 : ℚ), 0, 0)).1 = 0)) :=
  ⟨by norm_num, claim_C4 2 ((-1 : ℚ), 0, 0) (by norm_num)⟩

/-! ### Claim C2 — solid-wall handling (source defect) -/

/-- C2: at the `+x` wall the source writes
`velocity.x = velocity.y.min(0.0)` and at the `+y` wall
`velocity.y = velocity.x.min(0.0)` (lib.rs lines 183 and 199), so a
particle crossing the `+x` wall with velocity `(1, -3, 0)` ends with
`velocity.x = -3` (the other axis's component) instead of the claimed
`min(1, 0) = 0`; symmetrically for the `+y` wall.  The other four walls
clamp the matching axis. -/
theorem claim_C2 :
    updatePosition cfgWalls 1 (49/10, 0, 0) (1, -3, 0) = ((5, -3, 0), (-3, -3, 0)) ∧
    updatePosition cfgWalls 1 (0, 49/10, 0) (-3, 1, 0) = ((-3, 5, 0), (-3, -3, 0)) ∧
    min (1 : ℚ) 0 = 0 ∧ ((-3 : ℚ)) ≠ 0 := by
  refine ⟨by with_unfolding_all rfl, by with_unfolding_all rfl, by norm_num, by norm_num⟩

/-! ### Claim C6 — which contract violations fail fast -/

/-- C6 counterexample: a configuration with
`attraction_matrix.len() = 0 ≠ 1 = id_count²` on which `update` returns
normally instead of failing. -/
theorem claim_C6_counterexample :
    cfgBadMatrix.attraction_matrix.length ≠ cfgBadMatrix.id_count * cfgBadMatrix.id_count ∧
    cfgBadMatrix.update 1 = some cfgBadMatrix := by
  refine ⟨by decide, ?_⟩
  have h := update_nil cfgBadMatrix 1 (by norm_num [cfgBadMatrix]) rfl
  simpa [cfgBadMatrix] using h

/-- C6 (amended): only the `world_size >= 2 * particle_effect_radius`
contract is checked up front (the `assert!`): `update` fails fast whenever
it is violated.  A wrong `attraction_matrix` length or an out-of-range
`type_id` is not checked before the tick; it only causes a failure if an
in-range pair actually indexes the matrix out of bounds. -/
theorem claim_C6 (s : Particles) (ts : ℚ)
    (h : s.world_size < 2 * s.particle_effect_radius) : s.update ts = none := by
  unfold Particles.update
  rw [if_neg (not_le.mpr h)]

theorem claim_C6_witness :
    cfgNarrow.world_size < 2 * cfgNarrow.particle_effect_radius ∧
    cfgNarrow.update 1 = none :=
  ⟨by norm_num [cfgNarrow], claim_C6 cfgNarrow 1 (by norm_num [cfgNarrow])⟩

/-! ### Claim C7 — zero particles -/

/-- C7: with both particle buffers empty (`table_length == 0`) and the
checked geometry precondition satisfied, `update` returns normally — no
remainder by the zero table length is ever evaluated (any such evaluation
would yield `none` in this embedding) — and the state is unchanged. -/
theorem claim_C7 (s : Particles) (ts : ℚ)
    (hw : s.world_size ≥ 2 * s.particle_effect_radius)
    (hc : s.current_particles = []) (hp : s.previous_particles = []) :
    s.update ts = some s := by
  obtain ⟨ws, cur, prev, ic, am, co, fr, fs, mp, rad, sw, g⟩ := s
  obtain rfl : cur = [] := hc
  obtain rfl : prev = [] := hp
  exact update_nil _ ts hw rfl

theorem claim_C7_witness :
    cfgEmpty.world_size ≥ 2 * cfgEmpty.particle_effect_radius ∧
    cfgEmpty.update 1 = some cfgEmpty :=
  ⟨by norm_num [cfgEmpty], claim_C7 cfgEmpty 1 (by norm_num [cfgEmpty]) rfl rfl⟩

/-! ### Claim C9 — damping never reverses or speeds up motion -/

/-- C9: with zero accumulated force and zero gravity, and `friction >= 0`,
`ts >= 0`, the damping step either scales the velocity by
`1 - friction * ts` (when `|v * friction * ts|² <= |v|²`) or zeroes it
(otherwise), and the squared speed never increases. -/
theorem claim_C9 (s : Particles) (ts : ℚ) (v : Vec3)
    (hg : s.gravity = (0, 0, 0)) (hf : 0 ≤ s.friction) (ht : 0 ≤ ts) :
    ((Vec3.magnitude2 (Vec3.smul v (s.friction * ts)) ≤ Vec3.magnitude2 v ∧
        updateVelocity s ts (0, 0, 0) v = Vec3.smul v (1 - s.friction * ts)) ∨
      (Vec3.magnitude2 v < Vec3.magnitude2 (Vec3.smul v (s.friction * ts)) ∧
        updateVelocity s ts (0, 0, 0) v = (0, 0, 0))) ∧
    Vec3.magnitude2 (updateVelocity s ts (0, 0, 0) v) ≤ Vec3.magnitude2 v := by
  obtain ⟨a, b, c⟩ := v
  have hk0 : 0 ≤ s.friction * ts := mul_nonneg hf ht
  set k := s.friction * ts with hk
  have hm0 : (0 : ℚ) ≤ a * a + b * b + c * c := by
    nlinarith [sq_nonneg a, sq_nonneg b, sq_nonneg c]
  have hv : updateVelocity s ts (0, 0, 0) (a, b, c) =
      if a * k * (a * k) + b * k * (b * k) + c * k * (c * k) > a * a + b * b + c * c
      then ((0 : ℚ), 0, 0)
      else (a * (1 - k), b * (1 - k), c * (1 - k)) := by
    unfold updateVelocity
    rw [hg]
    simp only [Vec3.smul, Vec3.magnitude2, Prod.mk_add_mk, Prod.mk_sub_mk]
    have e1 : a + 0 * s.force_scale * s.particle_effect_radius * ts + 0 * ts = a := by ring
    have e2 : b + 0 * s.force_scale * s.particle_effect_radius * ts + 0 * ts = b := by ring
    have e3 : c + 0 * s.force_scale * s.particle_effect_radius * ts + 0 * ts = c := by ring
    rw [e1, e2, e3]
    split_ifs with h
    · rfl
    · refine Prod.ext (by ring) (Prod.ext (by ring) (by ring))
  have hcm : Vec3.magnitude2 (Vec3.smul (a, b, c) k) =
      a * k * (a * k) + b * k * (b * k) + c * k * (c * k) := rfl
  have hm : Vec3.magnitude2 ((a, b, c) : Vec3) = a * a + b * b + c * c := rfl
  rw [hv, hcm, hm]
  by_cases hcond : a * k * (a * k) + b * k * (b * k) + c * k * (c * k) > a * a + b * b + c * c
  · rw [if_pos hcond]
    exact ⟨Or.inr ⟨hcond, rfl⟩, by simpa [Vec3.magnitude2] using hm0⟩
  · rw [if_neg hcond]
    push_neg at hcond
    refine ⟨Or.inl ⟨hcond, rfl⟩, ?_⟩
    show (a*(1-k)) * (a*(1-k)) + (b*(1-k)) * (b*(1-k)) + (c*(1-k)) * (c*(1-k)) ≤
      a * a + b * b + c * c
    nlinarith [mul_nonneg (mul_nonneg hk0 hk0) hm0, mul_nonneg hk0 hm0]

theorem claim_C9_witness :
    cfgFrict.gravity = (0, 0, 0) ∧ 0 ≤ cfgFrict.friction ∧ 0 ≤ (1 : ℚ) ∧
    (((Vec3.magnitude2 (Vec3.smul ((2 : ℚ), 0, 0) (cfgFrict.friction * 1)) ≤
          Vec3.magnitude2 ((2 : ℚ), 0, 0) ∧
        updateVelocity cfgFrict 1 (0, 0, 0) ((2 : ℚ), 0, 0) =
          Vec3.smul ((2 : ℚ), 0, 0) (1 - cfgFrict.friction * 1)) ∨
      (Vec3.magnitude2 ((2 : ℚ), 0, 0) <
          Vec3.magnitude2 (Vec3.smul ((2 : ℚ), 0, 0) (cfgFrict.friction * 1)) ∧
        updateVelocity cfgFrict 1 (0, 0, 0) ((2 : ℚ), 0, 0) = (0, 0, 0))) ∧
    Vec3.magnitude2 (updateVelocity cfgFrict 1 (0, 0, 0) ((2 : ℚ), 0, 0)) ≤
      Vec3.magnitude2 ((2 : ℚ), 0, 0)) :=
  ⟨rfl, by norm_num [cfgFrict], by norm_num,
    claim_C9 cfgFrict 1 ((2 : ℚ), 0, 0) rfl (by norm_num [cfgFrict]) (by norm_num)⟩

/-! ### Claim C3 — the force law acts on the raw distance -/

/-- C3 counterexample: with `particle_effect_radius = 2`,
`beta = 1/2`, attraction `1`, a pair at raw distance `3/2` (normalized
`r = 3/4`) gets force `0` from the code (the closure compares the raw
distance against `beta` and `1`), while the spec's normalized formula gives
the full mid-lobe contribution `normalize(rel) * 1`. -/
theorem claim_C3_counterexample :
    pairForce cfg2 ⟨(0, 0, 0), (0, 0, 0), 0⟩ ⟨(3/2, 0, 0), (0, 0, 0), 0⟩ (0, 0, 0) =
      some ((0 : ℚ), 0, 0) ∧
    specPairContrib cfg2 ⟨(0, 0, 0), (0, 0, 0), 0⟩ ⟨(3/2, 0, 0), (0, 0, 0), 0⟩ (0, 0, 0) =
      ((1 : ℚ), 0, 0) ∧
    ((0 : ℚ), (0 : ℚ), (0 : ℚ)) ≠ ((1 : ℚ), (0 : ℚ), (0 : ℚ)) := by
  refine ⟨by with_unfolding_all rfl, by with_unfolding_all rfl, ?_⟩
  intro h
  have := congrArg Prod.fst h
  norm_num at this

/-- C3 (amended): for every in-range pair the accumulated contribution is
`normalize(relative) * f(distance, attraction_matrix[...])` where `f` is
evaluated at the **raw** world-space distance `sqrt(sqr_distance)` — the
branch thresholds `beta` and `1` of the closure compare the raw distance,
which is never divided by `particle_effect_radius`. -/
theorem claim_C3 (s : Particles) (p other : Particle) (offset : Vec3) (a : ℚ)
    (hd : 0 < Vec3.magnitude2 (other.position - (p.position + offset)))
    (hR : Vec3.magnitude2 (other.position - (p.position + offset)) <
      s.particle_effect_radius * s.particle_effect_radius)
    (ha : s.attraction_matrix.get? (p.id * s.id_count + other.id) = some a) :
    pairForce s p other offset =
      some (Vec3.smul
        (Vec3.sdiv (other.position - (p.position + offset))
          (ratSqrt (Vec3.magnitude2 (other.position - (p.position + offset)))))
        (forceLaw s.min_attraction_percentage
          (ratSqrt (Vec3.magnitude2 (other.position - (p.position + offset)))) a)) := by
  unfold pairForce
  rw [if_pos ⟨hd, hR⟩, ha]

theorem claim_C3_witness :
    0 < Vec3.magnitude2 (partB.position - (partA.position + (0, 0, 0))) ∧
    Vec3.magnitude2 (partB.position - (partA.position + (0, 0, 0))) <
      cfg2.particle_effect_radius * cfg2.particle_effect_radius ∧
    cfg2.attraction_matrix.get? (partA.id * cfg2.id_count + partB.id) = some 1 ∧
    pairForce cfg2 partA partB (0, 0, 0) =
      some (Vec3.smul
        (Vec3.sdiv (partB.position - (partA.position + (0, 0, 0)))
          (ratSqrt (Vec3.magnitude2 (partB.position - (partA.position + (0, 0, 0))))))
        (forceLaw cfg2.min_attraction_percentage
          (ratSqrt (Vec3.magnitude2 (partB.position - (partA.position + (0, 0, 0))))) 1)) := by
  have h1 : 0 < Vec3.magnitude2 (partB.position - (partA.position + (0, 0, 0))) := by
    norm_num [partA, partB, Vec3.magnitude2, Prod.ext_iff]
  have h2 : Vec3.magnitude2 (partB.position - (partA.position + (0, 0, 0))) <
      cfg2.particle_effect_radius * cfg2.particle_effect_radius := by
    norm_num [partA, partB, cfg2, Vec3.magnitude2, Prod.ext_iff]
  have h3 : cfg2.attraction_matrix.get? (partA.id * cfg2.id_count + partB.id) = some 1 := rfl
  exact ⟨h1, h2, h3, claim_C3 cfg2 partA partB (0, 0, 0) 1 h1 h2 h3⟩

/-! ### Claims C8 and C10 — population and frame conditions -/

theorem mapO_length {α β : Type} (f : α → Option β) :
    ∀ (l : List α) (l' : List β), mapO f l = some l' → l'.length = l.length := by
  intro l
  induction l with
  | nil => intro l' h; cases h; rfl
  | cons a t ih =>
    intro l' h
    unfold mapO at h
    cases hfa : f a with
    | none => rw [hfa] at h; cases h
    | some b =>
      rw [hfa] at h
      cases hmt : mapO f t with
      | none => rw [hmt] at h; cases h
      | some t' =>
        rw [hmt] at h
        cases h
        simp [ih t' hmt]

/-- Case analysis skeleton shared by the population and frame claims:
whenever `update` succeeds, the result is the input state with
`current_particles` replaced by the `mapO` image of the old list and
`previous_particles` replaced by the old `current_particles`. -/
theorem update_shape (s : Particles) (ts : ℚ) (s' : Particles)
    (h : s.update ts = some s') :
    ∃ tbl idxs nextParticles,
      mapO (updateParticle s tbl idxs s.current_particles ts) s.current_particles =
        some nextParticles ∧
      s' = { s with
        current_particles := nextParticles
        previous_particles := s.current_particles } := by
  unfold Particles.update at h
  by_cases hw : s.world_size ≥ 2 * s.particle_effect_radius
  · rw [if_pos hw] at h
    cases hb : buildIndex s.particle_effect_radius s.current_particles with
    | none => rw [hb] at h; cases h
    | some pair =>
      obtain ⟨tbl, idxs⟩ := pair
      rw [hb] at h
      dsimp only at h
      cases hm : mapO (updateParticle s tbl idxs s.current_particles ts)
          s.current_particles with
      | none => rw [hm] at h; cases h
      | some nextParticles =>
        rw [hm] at h
        cases h
        exact ⟨tbl, idxs, nextParticles, hm, rfl⟩
  · rw [if_neg hw] at h; cases h

/-- C8: whenever a tick completes, the number of particles is preserved. -/
theorem claim_C8 (s : Particles) (ts : ℚ) (s' : Particles)
    (h : s.update ts = some s') :
    s'.current_particles.length = s.current_particles.length := by
  obtain ⟨tbl, idxs, nextParticles, hm, rfl⟩ := update_shape s ts s' h
  exact mapO_length _ _ _ hm

/-- C10: `update` only rewrites the two particle buffers; every other field
of the state is returned unchanged. -/
theorem claim_C10 (s : Particles) (ts : ℚ) (s' : Particles)
    (h : s.update ts = some s') :
    s'.world_size = s.world_size ∧ s'.id_count = s.id_count ∧
    s'.attraction_matrix = s.attraction_matrix ∧ s'.colors = s.colors ∧
    s'.friction = s.friction ∧ s'.force_scale = s.force_scale ∧
    s'.min_attraction_percentage = s.min_attraction_percentage ∧
    s'.particle_effect_radius = s.particle_effect_radius ∧
    s'.solid_walls = s.solid_walls ∧ s'.gravity = s.gravity ∧
    s'.previous_particles = s.current_particles := by
  obtain ⟨tbl, idxs, nextParticles, hm, rfl⟩ := update_shape s ts s' h
  exact ⟨rfl, rfl, rfl, rfl, rfl, rfl, rfl, rfl, rfl, rfl, rfl⟩

/-! ### Concrete evaluation of one tick of `cfg2` (chunked per world offset) -/

theorem foldlO_cons {α β : Type} {f : β → α → Option β} {b b' : β} {a : α}
    {l : List α} (h : f b a = some b') : foldlO f b (a :: l) = foldlO f b' l := by
  simp [foldlO, h]

theorem offsets27_eq : offsets27 =
    [
      (-1, -1, -1), (-1, -1, 0), (-1, -1, 1), (-1, 0, -1), (-1, 0, 0), (-1, 0, 1), (-1, 1, -1), (-1, 1, 0), (-1, 1, 1), (0, -1, -1), (0, -1, 0), (0, -1, 1), (0, 0, -1), (0, 0, 0), (0, 0, 1), (0, 1, -1), (0, 1, 0), (0, 1, 1), (1, -1, -1), (1, -1, 0), (1, -1, 1), (1, 0, -1), (1, 0, 0), (1, 0, 1), (1, 1, -1), (1, 1, 0), (1, 1, 1)] := by
  with_unfolding_all rfl

theorem scanA1 :
    scanOffset cfg2 [0, 2, 2] [1, 0] [partA, partB] partA ((0 : ℚ), 0, 0)
      ((-1 : ℤ), (-1 : ℤ), (-1 : ℤ)) = some ((0 : ℚ), 0, 0) := by
  with_unfolding_all rfl

theorem scanA2 :
    scanOffset cfg2 [0, 2, 2] [1, 0] [partA, partB] partA ((0 : ℚ), 0, 0)
      ((-1 : ℤ), (-1 : ℤ), (0 : ℤ)) = some ((0 : ℚ), 0, 0) := by
  with_unfolding_all rfl

theorem scanA3 :
    scanOffset cfg2 [0, 2, 2] [1, 0] [partA, partB] partA ((0 : ℚ), 0, 0)
      ((-1 : ℤ), (-1 : ℤ), (1 : ℤ)) = some ((0 : ℚ), 0, 0) := by
  with_unfolding_all rfl

theorem scanA4 :
    scanOffset cfg2 [0, 2, 2] [1, 0] [partA, partB] partA ((0 : ℚ), 0, 0)
      ((-1 : ℤ), (0 : ℤ), (-1 : ℤ)) = some ((0 : ℚ), 0, 0) := by
  with_unfolding_all rfl

theorem scanA5 :
    scanOffset cfg2 [0, 2, 2] [1, 0] [partA, partB] partA ((0 : ℚ), 0, 0)
      ((-1 : ℤ), (0 : ℤ), (0 : ℤ)) = some ((0 : ℚ), 0, 0) := by
  with_unfolding_all rfl

theorem scanA6 :
    scanOffset cfg2 [0, 2, 2] [1, 0] [partA, partB] partA ((0 : ℚ), 0, 0)
      ((-1 : ℤ), (0 : ℤ), (1 : ℤ)) = some ((0 : ℚ), 0, 0) := by
  with_unfolding_all rfl

theorem scanA7 :
    scanOffset cfg2 [0, 2, 2] [1, 0] [partA, partB] partA ((0 : ℚ), 0, 0)
      ((-1 : ℤ), (1 : ℤ), (-1 : ℤ)) = some ((0 : ℚ), 0, 0) := by
  with_unfolding_all rfl

theorem scanA8 :
    scanOffset cfg2 [0, 2, 2] [1, 0] [partA, partB] partA ((0 : ℚ), 0, 0)
      ((-1 : ℤ), (1 : ℤ), (0 : ℤ)) = some ((0 : ℚ), 0, 0) := by
  with_unfolding_all rfl

theorem scanA9 :
    scanOffset cfg2 [0, 2, 2] [1, 0] [partA, partB] partA ((0 : ℚ), 0, 0)
      ((-1 : ℤ), (1 : ℤ), (1 : ℤ)) = some ((0 : ℚ), 0, 0) := by
  with_unfolding_all rfl

theorem scanA10 :
    scanOffset cfg2 [0, 2, 2] [1, 0] [partA, partB] partA ((0 : ℚ), 0, 0)
      ((0 : ℤ), (-1 : ℤ), (-1 : ℤ)) = some ((0 : ℚ), 0, 0) := by
  with_unfolding_all rfl

theorem scanA11 :
    scanOffset cfg2 [0, 2, 2] [1, 0] [partA, partB] partA ((0 : ℚ), 0, 0)
      ((0 : ℤ), (-1 : ℤ), (0 : ℤ)) = some ((0 : ℚ), 0, 0) := by
  with_unfolding_all rfl

theorem scanA12 :
    scanOffset cfg2 [0, 2, 2] [1, 0] [partA, partB] partA ((0 : ℚ), 0, 0)
      ((0 : ℤ), (-1 : ℤ), (1 : ℤ)) = some ((0 : ℚ), 0, 0) := by
  with_unfolding_all rfl

theorem scanA13 :
    scanOffset cfg2 [0, 2, 2] [1, 0] [partA, partB] partA ((0 : ℚ), 0, 0)
      ((0 : ℤ), (0 : ℤ), (-1 : ℤ)) = some ((0 : ℚ), 0, 0) := by
  with_unfolding_all rfl

theorem scanA14 :
    scanOffset cfg2 [0, 2, 2] [1, 0] [partA, partB] partA ((0 : ℚ), 0, 0)
      ((0 : ℤ), (0 : ℤ), (0 : ℤ)) = some ((-11 : ℚ)/2, 0, 0) := by
  with_unfolding_all rfl

theorem scanA15 :
    scanOffset cfg2 [0, 2, 2] [1, 0] [partA, partB] partA ((-11 : ℚ)/2, 0, 0)
      ((0 : ℤ), (0 : ℤ), (1 : ℤ)) = some ((-11 : ℚ)/2, 0, 0) := by
  with_unfolding_all rfl

theorem scanA16 :
    scanOffset cfg2 [0, 2, 2] [1, 0] [partA, partB] partA ((-11 : ℚ)/2, 0, 0)
      ((0 : ℤ), (1 : ℤ), (-1 : ℤ)) = some ((-11 : ℚ)/2, 0, 0) := by
  with_unfolding_all rfl

theorem scanA17 :
    scanOffset cfg2 [0, 2, 2] [1, 0] [partA, partB] partA ((-11 : ℚ)/2, 0, 0)
      ((0 : ℤ), (1 : ℤ), (0 : ℤ)) = some ((-11 : ℚ)/2, 0, 0) := by
  with_unfolding_all rfl

theorem scanA18 :
    scanOffset cfg2 [0, 2, 2] [1, 0] [partA, partB] partA ((-11 : ℚ)/2, 0, 0)
      ((0 : ℤ), (1 : ℤ), (1 : ℤ)) = some ((-11 : ℚ)/2, 0, 0) := by
  with_unfolding_all rfl

theorem scanA19 :
    scanOffset cfg2 [0, 2, 2] [1, 0] [partA, partB] partA ((-11 : ℚ)/2, 0, 0)
      ((1 : ℤ), (-1 : ℤ), (-1 : ℤ)) = some ((-11 : ℚ)/2, 0, 0) := by
  with_unfolding_all rfl

theorem scanA20 :
    scanOffset cfg2 [0, 2, 2] [1, 0] [partA, partB] partA ((-11 : ℚ)/2, 0, 0)
      ((1 : ℤ), (-1 : ℤ), (0 : ℤ)) = some ((-11 : ℚ)/2, 0, 0) := by
  with_unfolding_all rfl

theorem scanA21 :
    scanOffset cfg2 [0, 2, 2] [1, 0] [partA, partB] partA ((-11 : ℚ)/2, 0, 0)
      ((1 : ℤ), (-1 : ℤ), (1 : ℤ)) = some ((-11 : ℚ)/2, 0, 0) := by
  with_unfolding_all rfl

theorem scanA22 :
    scanOffset cfg2 [0, 2, 2] [1, 0] [partA, partB] partA ((-11 : ℚ)/2, 0, 0)
      ((1 : ℤ), (0 : ℤ), (-1 : ℤ)) = some ((-11 : ℚ)/2, 0, 0) := by
  with_unfolding_all rfl

theorem scanA23 :
    scanOffset cfg2 [0, 2, 2] [1, 0] [partA, partB] partA ((-11 : ℚ)/2, 0, 0)
      ((1 : ℤ), (0 : ℤ), (0 : ℤ)) = some ((-11 : ℚ)/2, 0, 0) := by
  with_unfolding_all rfl

theorem scanA24 :
    scanOffset cfg2 [0, 2, 2] [1, 0] [partA, partB] partA ((-11 : ℚ)/2, 0, 0)
      ((1 : ℤ), (0 : ℤ), (1 : ℤ)) = some ((-11 : ℚ)/2, 0, 0) := by
  with_unfolding_all rfl

theorem scanA25 :
    scanOffset cfg2 [0, 2, 2] [1, 0] [partA, partB] partA ((-11 : ℚ)/2, 0, 0)
      ((1 : ℤ), (1 : ℤ), (-1 : ℤ)) = some ((-11 : ℚ)/2, 0, 0) := by
  with_unfolding_all rfl

theorem scanA26 :
    scanOffset cfg2 [0, 2, 2] [1, 0] [partA, partB] partA ((-11 : ℚ)/2, 0, 0)
      ((1 : ℤ), (1 : ℤ), (0 : ℤ)) = some ((-11 : ℚ)/2, 0, 0) := by
  with_unfolding_all rfl

theorem scanA27 :
    scanOffset cfg2 [0, 2, 2] [1, 0] [partA, partB] partA ((-11 : ℚ)/2, 0, 0)
      ((1 : ℤ), (1 : ℤ), (1 : ℤ)) = some ((-11 : ℚ)/2, 0, 0) := by
  with_unfolding_all rfl

theorem scanB1 :
    scanOffset cfg2 [0, 2, 2] [1, 0] [partA, partB] partB ((0 : ℚ), 0, 0)
      ((-1 : ℤ), (-1 : ℤ), (-1 : ℤ)) = some ((0 : ℚ), 0, 0) := by
  with_unfolding_all rfl

theorem scanB2 :
    scanOffset cfg2 [0, 2, 2] [1, 0] [partA, partB] partB ((0 : ℚ), 0, 0)
      ((-1 : ℤ), (-1 : ℤ), (0 : ℤ)) = some ((0 : ℚ), 0, 0) := by
  with_unfolding_all rfl

theorem scanB3 :
    scanOffset cfg2 [0, 2, 2] [1, 0] [partA, partB] partB ((0 : ℚ), 0, 0)
      ((-1 : ℤ), (-1 : ℤ), (1 : ℤ)) = some ((0 : ℚ), 0, 0) := by
  with_unfolding_all rfl

theorem scanB4 :
    scanOffset cfg2 [0, 2, 2] [1, 0] [partA, partB] partB ((0 : ℚ), 0, 0)
      ((-1 : ℤ), (0 : ℤ), (-1 : ℤ)) = some ((0 : ℚ), 0, 0) := by
  with_unfolding_all rfl

theorem scanB5 :
    scanOffset cfg2 [0, 2, 2] [1, 0] [partA, partB] partB ((0 : ℚ), 0, 0)
      ((-1 : ℤ), (0 : ℤ), (0 : ℤ)) = some ((0 : ℚ), 0, 0) := by
  with_unfolding_all rfl

theorem scanB6 :
    scanOffset cfg2 [0, 2, 2] [1, 0] [partA, partB] partB ((0 : ℚ), 0, 0)
      ((-1 : ℤ), (0 : ℤ), (1 : ℤ)) = some ((0 : ℚ), 0, 0) := by
  with_unfolding_all rfl

theorem scanB7 :
    scanOffset cfg2 [0, 2, 2] [1, 0] [partA, partB] partB ((0 : ℚ), 0, 0)
      ((-1 : ℤ), (1 : ℤ), (-1 : ℤ)) = some ((0 : ℚ), 0, 0) := by
  with_unfolding_all rfl

theorem scanB8 :
    scanOffset cfg2 [0, 2, 2] [1, 0] [partA, partB] partB ((0 : ℚ), 0, 0)
      ((-1 : ℤ), (1 : ℤ), (0 : ℤ)) = some ((0 : ℚ), 0, 0) := by
  with_unfolding_all rfl

theorem scanB9 :
    scanOffset cfg2 [0, 2, 2] [1, 0] [partA, partB] partB ((0 : ℚ), 0, 0)
      ((-1 : ℤ), (1 : ℤ), (1 : ℤ)) = some ((0 : ℚ), 0, 0) := by
  with_unfolding_all rfl

theorem scanB10 :
    scanOffset cfg2 [0, 2, 2] [1, 0] [partA, partB] partB ((0 : ℚ), 0, 0)
      ((0 : ℤ), (-1 : ℤ), (-1 : ℤ)) = some ((0 : ℚ), 0, 0) := by
  with_unfolding_all rfl

theorem scanB11 :
    scanOffset cfg2 [0, 2, 2] [1, 0] [partA, partB] partB ((0 : ℚ), 0, 0)
      ((0 : ℤ), (-1 : ℤ), (0 : ℤ)) = some ((0 : ℚ), 0, 0) := by
  with_unfolding_all rfl

theorem scanB12 :
    scanOffset cfg2 [0, 2, 2] [1, 0] [partA, partB] partB ((0 : ℚ), 0, 0)
      ((0 : ℤ), (-1 : ℤ), (1 : ℤ)) = some ((0 : ℚ), 0, 0) := by
  with_unfolding_all rfl

theorem scanB13 :
    scanOffset cfg2 [0, 2, 2] [1, 0] [partA, partB] partB ((0 : ℚ), 0, 0)
      ((0 : ℤ), (0 : ℤ), (-1 : ℤ)) = some ((0 : ℚ), 0, 0) := by
  with_unfolding_all rfl

theorem scanB14 :
    scanOffset cfg2 [0, 2, 2] [1, 0] [partA, partB] partB ((0 : ℚ), 0, 0)
      ((0 : ℤ), (0 : ℤ), (0 : ℤ)) = some ((11 : ℚ)/2, 0, 0) := by
  with_unfolding_all rfl

theorem scanB15 :
    scanOffset cfg2 [0, 2, 2] [1, 0] [partA, partB] partB ((11 : ℚ)/2, 0, 0)
      ((0 : ℤ), (0 : ℤ), (1 : ℤ)) = some ((11 : ℚ)/2, 0, 0) := by
  with_unfolding_all rfl

theorem scanB16 :
    scanOffset cfg2 [0, 2, 2] [1, 0] [partA, partB] partB ((11 : ℚ)/2, 0, 0)
      ((0 : ℤ), (1 : ℤ), (-1 : ℤ)) = some ((11 : ℚ)/2, 0, 0) := by
  with_unfolding_all rfl

theorem scanB17 :
    scanOffset cfg2 [0, 2, 2] [1, 0] [partA, partB] partB ((11 : ℚ)/2, 0, 0)
      ((0 : ℤ), (1 : ℤ), (0 : ℤ)) = some ((11 : ℚ)/2, 0, 0) := by
  with_unfolding_all rfl

theorem scanB18 :
    scanOffset cfg2 [0, 2, 2] [1, 0] [partA, partB] partB ((11 : ℚ)/2, 0, 0)
      ((0 : ℤ), (1 : ℤ), (1 : ℤ)) = some ((11 : ℚ)/2, 0, 0) := by
  with_unfolding_all rfl

theorem scanB19 :
    scanOffset cfg2 [0, 2, 2] [1, 0] [partA, partB] partB ((11 : ℚ)/2, 0, 0)
      ((1 : ℤ), (-1 : ℤ), (-1 : ℤ)) = some ((11 : ℚ)/2, 0, 0) := by
  with_unfolding_all rfl

theorem scanB20 :
    scanOffset cfg2 [0, 2, 2] [1, 0] [partA, partB] partB ((11 : ℚ)/2, 0, 0)
      ((1 : ℤ), (-1 : ℤ), (0 : ℤ)) = some ((11 : ℚ)/2, 0, 0) := by
  with_unfolding_all rfl

theorem scanB21 :
    scanOffset cfg2 [0, 2, 2] [1, 0] [partA, partB] partB ((11 : ℚ)/2, 0, 0)
      ((1 : ℤ), (-1 : ℤ), (1 : ℤ)) = some ((11 : ℚ)/2, 0, 0) := by
  with_unfolding_all rfl

theorem scanB22 :
    scanOffset cfg2 [0, 2, 2] [1, 0] [partA, partB] partB ((11 : ℚ)/2, 0, 0)
      ((1 : ℤ), (0 : ℤ), (-1 : ℤ)) = some ((11 : ℚ)/2, 0, 0) := by
  with_unfolding_all rfl

theorem scanB23 :
    scanOffset cfg2 [0, 2, 2] [1, 0] [partA, partB] partB ((11 : ℚ)/2, 0, 0)
      ((1 : ℤ), (0 : ℤ), (0 : ℤ)) = some ((11 : ℚ)/2, 0, 0) := by
  with_unfolding_all rfl

theorem scanB24 :
    scanOffset cfg2 [0, 2, 2] [1, 0] [partA, partB] partB ((11 : ℚ)/2, 0, 0)
      ((1 : ℤ), (0 : ℤ), (1 : ℤ)) = some ((11 : ℚ)/2, 0, 0) := by
  with_unfolding_all rfl

theorem scanB25 :
    scanOffset cfg2 [0, 2, 2] [1, 0] [partA, partB] partB ((11 : ℚ)/2, 0, 0)
      ((1 : ℤ), (1 : ℤ), (-1 : ℤ)) = some ((11 : ℚ)/2, 0, 0) := by
  with_unfolding_all rfl

theorem scanB26 :
    scanOffset cfg2 [0, 2, 2] [1, 0] [partA, partB] partB ((11 : ℚ)/2, 0, 0)
      ((1 : ℤ), (1 : ℤ), (0 : ℤ)) = some ((11 : ℚ)/2, 0, 0) := by
  with_unfolding_all rfl

theorem scanB27 :
    scanOffset cfg2 [0, 2, 2] [1, 0] [partA, partB] partB ((11 : ℚ)/2, 0, 0)
      ((1 : ℤ), (1 : ℤ), (1 : ℤ)) = some ((11 : ℚ)/2, 0, 0) := by
  with_unfolding_all rfl

theorem totalForce_cfg2_A :
    totalForce cfg2 [0, 2, 2] [1, 0] [partA, partB] partA = some ((-11 : ℚ)/2, 0, 0) := by
  unfold totalForce
  rw [offsets27_eq, show (0 : Vec3) = ((0 : ℚ), 0, 0) from rfl, foldlO_cons scanA1, foldlO_cons scanA2, foldlO_cons scanA3, foldlO_cons scanA4, foldlO_cons scanA5, foldlO_cons scanA6, foldlO_cons scanA7, foldlO_cons scanA8, foldlO_cons scanA9, foldlO_cons scanA10, foldlO_cons scanA11, foldlO_cons scanA12, foldlO_cons scanA13, foldlO_cons scanA14, foldlO_cons scanA15, foldlO_cons scanA16, foldlO_cons scanA17, foldlO_cons scanA18, foldlO_cons scanA19, foldlO_cons scanA20, foldlO_cons scanA21, foldlO_cons scanA22, foldlO_cons scanA23, foldlO_cons scanA24, foldlO_cons scanA25, foldlO_cons scanA26, foldlO_cons scanA27]
  rfl

theorem totalForce_cfg2_B :
    totalForce cfg2 [0, 2, 2] [1, 0] [partA, partB] partB = some ((11 : ℚ)/2, 0, 0) := by
  unfold totalForce
  rw [offsets27_eq, show (0 : Vec3) = ((0 : ℚ), 0, 0) from rfl, foldlO_cons scanB1, foldlO_cons scanB2, foldlO_cons scanB3, foldlO_cons scanB4, foldlO_cons scanB5, foldlO_cons scanB6, foldlO_cons scanB7, foldlO_cons scanB8, foldlO_cons scanB9, foldlO_cons scanB10, foldlO_cons scanB11, foldlO_cons scanB12, foldlO_cons scanB13, foldlO_cons scanB14, foldlO_cons scanB15, foldlO_cons scanB16, foldlO_cons scanB17, foldlO_cons scanB18, foldlO_cons scanB19, foldlO_cons scanB20, foldlO_cons scanB21, foldlO_cons scanB22, foldlO_cons scanB23, foldlO_cons scanB24, foldlO_cons scanB25, foldlO_cons scanB26, foldlO_cons scanB27]
  rfl


theorem buildIndex_cfg2 : buildIndex 2 [partA, partB] = some ([0, 2, 2], [1, 0]) := by
  with_unfolding_all rfl

theorem updateParticle_cfg2_A :
    updateParticle cfg2 [0, 2, 2] [1, 0] [partA, partB] 1 partA = some partA2 := by
  unfold updateParticle
  rw [totalForce_cfg2_A]
  with_unfolding_all rfl

theorem updateParticle_cfg2_B :
    updateParticle cfg2 [0, 2, 2] [1, 0] [partA, partB] 1 partB = some partB2 := by
  unfold updateParticle
  rw [totalForce_cfg2_B]
  with_unfolding_all rfl

theorem mapO_cfg2 :
    mapO (updateParticle cfg2 [0, 2, 2] [1, 0] [partA, partB] 1) [partA, partB] =
      some [partA2, partB2] := by
  unfold mapO mapO
  rw [updateParticle_cfg2_A, updateParticle_cfg2_B]
  rfl

/-- One full tick of the two-particle configuration, evaluated. -/
theorem update_cfg2 : cfg2.update 1 = some cfg2next := by
  unfold Particles.update
  rw [if_pos (by norm_num [cfg2] : cfg2.world_size ≥ 2 * cfg2.particle_effect_radius)]
  rw [show cfg2.particle_effect_radius = 2 from rfl,
    show cfg2.current_particles = [partA, partB] from rfl, buildIndex_cfg2]
  dsimp only
  rw [show (updateParticle cfg2 [0, 2, 2] [1, 0] [partA, partB] 1) =
    (updateParticle cfg2 [0, 2, 2] [1, 0] [partA, partB] 1) from rfl, mapO_cfg2]
  rfl

theorem claim_C8_witness :
    cfg2.update 1 = some cfg2next ∧
    cfg2next.current_particles.length = cfg2.current_particles.length :=
  ⟨update_cfg2, claim_C8 cfg2 1 cfg2next update_cfg2⟩

theorem claim_C10_witness :
    cfg2.update 1 = some cfg2next ∧
    (cfg2next.world_size = cfg2.world_size ∧ cfg2next.id_count = cfg2.id_count ∧
    cfg2next.attraction_matrix = cfg2.attraction_matrix ∧ cfg2next.colors = cfg2.colors ∧
    cfg2next.friction = cfg2.friction ∧ cfg2next.force_scale = cfg2.force_scale ∧
    cfg2next.min_attraction_percentage = cfg2.min_attraction_percentage ∧
    cfg2next.particle_effect_radius = cfg2.particle_effect_radius ∧
    cfg2next.solid_walls = cfg2.solid_walls ∧ cfg2next.gravity = cfg2.gravity ∧
    cfg2next.previous_particles = cfg2.current_particles) :=
  ⟨update_cfg2, claim_C10 cfg2 1 cfg2next update_cfg2⟩

/-! ### Claim C1 — grid-accelerated force versus brute force -/

/-- C1 counterexample: in the two-particle configuration `cfg2`, eleven of
the 27 cells scanned around the origin share the hash bucket (mod 2) of the
in-range neighbor, so the grid accumulates the pair's contribution eleven
times: the net grid force on `partA` is `(-11/2, 0, 0)` while the
brute-force reference of the claim gives `(-1/2, 0, 0)`. -/
theorem claim_C1_counterexample :
    buildIndex cfg2.particle_effect_radius cfg2.current_particles =
      some ([0, 2, 2], [1, 0]) ∧
    totalForce cfg2 [0, 2, 2] [1, 0] cfg2.current_particles partA =
      some ((-11 : ℚ)/2, 0, 0) ∧
    bruteForceRef cfg2 cfg2.current_particles partA = ((-1 : ℚ)/2, 0, 0) ∧
    (((-11 : ℚ)/2, (0 : ℚ), (0 : ℚ)) : Vec3) ≠ ((-1 : ℚ)/2, 0, 0) := by
  refine ⟨buildIndex_cfg2, totalForce_cfg2_A, by with_unfolding_all rfl, ?_⟩
  intro h
  have h1 := congrArg Prod.fst h
  norm_num at h1
/-! ### Counting-sort correctness (claim C5) -/

theorem getD_set_self {l : List ℕ} {i x d : ℕ} (h : i < l.length) :
    (l.set i x).getD i d = x := by
  simp [List.getD, List.getElem?_set_self, h]

theorem getD_set_ne {l : List ℕ} {i j x d : ℕ} (h : i ≠ j) :
    (l.set i x).getD j d = l.getD j d := by
  simp [List.getD, List.getElem?_set_ne h]

theorem keysOf_cons (radius : ℚ) (n : ℕ) (p : Particle) (ps : List Particle) :
    keysOf radius n (p :: ps) =
      (hashCell (cellCoord radius p.position) % n) :: keysOf radius n ps := rfl

/-- Count-pass characterization. -/
theorem countPass_fold (radius : ℚ) (n : ℕ) (hn : n ≠ 0) :
    ∀ (ps : List Particle) (tbl : List ℕ), tbl.length = n + 1 →
    ∃ tblF,
      foldlO (fun tbl p =>
        match bucketOf n (cellCoord radius p.position) with
        | none => none
        | some b => some (tbl.set b (tbl.getD b 0 + 1))) tbl ps = some tblF ∧
      tblF.length = n + 1 ∧
      ∀ b, tblF.getD b 0 = tbl.getD b 0 + (keysOf radius n ps).count b := by
  intro ps
  induction ps with
  | nil =>
    intro tbl hlen
    exact ⟨tbl, rfl, hlen, fun b => by simp [keysOf]⟩
  | cons p rest ih =>
    intro tbl hlen
    set k := hashCell (cellCoord radius p.position) % n with hk
    have hkn : k < n := Nat.mod_lt _ (Nat.pos_of_ne_zero hn)
    have hklen : k < tbl.length := by omega
    obtain ⟨tblF, hfold, hlenF, hval⟩ := ih (tbl.set k (tbl.getD k 0 + 1)) (by simp [hlen])
    refine ⟨tblF, ?_, hlenF, ?_⟩
    · rw [foldlO]
      simp only [bucketOf, if_neg hn] at hfold ⊢
      exact hfold
    · intro b
      rw [hval b, keysOf_cons, List.count_cons, ← hk]
      by_cases hbk : b = k
      · subst hbk
        rw [getD_set_self hklen]
        simp only [beq_self_eq_true, if_true, List.getD]
        omega
      · rw [getD_set_ne (fun hh => hbk hh.symm)]
        have hbeq : (k == b) = false := beq_eq_false_iff_ne.mpr (Ne.symm hbk)
        rw [hbeq]
        simp

theorem pSum_zero (tbl : List ℕ) : pSum tbl 0 = tbl.getD 0 0 := by
  unfold pSum
  rw [show List.range 1 = [0] from rfl]
  simp

theorem pSum_succ (tbl : List ℕ) (m : ℕ) :
    pSum tbl (m + 1) = pSum tbl m + tbl.getD (m + 1) 0 := by
  unfold pSum
  rw [List.range_succ, List.map_append, List.sum_append]
  simp

theorem prefixPass_go (tbl0 : List ℕ) :
    ∀ m, m ≤ tbl0.length →
    ∃ t, (List.range m).foldl
        (fun t i => if i = 0 then t else t.set i (t.getD i 0 + t.getD (i - 1) 0)) tbl0 = t ∧
      t.length = tbl0.length ∧
      (∀ i, i < m → t.getD i 0 = pSum tbl0 i) ∧
      (∀ i, m ≤ i → t.getD i 0 = tbl0.getD i 0) := by
  intro m
  induction m with
  | zero => exact fun _ => ⟨tbl0, rfl, rfl, fun i h => absurd h (Nat.not_lt_zero i), fun _ _ => rfl⟩
  | succ m ih =>
    intro hm
    obtain ⟨t, hfold, hlen, hlow, hhigh⟩ := ih (Nat.le_of_succ_le hm)
    rw [List.range_succ, List.foldl_append, hfold]
    simp only [List.foldl_cons, List.foldl_nil]
    by_cases hm0 : m = 0
    · subst hm0
      refine ⟨t, by simp, hlen, ?_, fun i hi => hhigh i (by omega)⟩
      intro i hi
      obtain rfl : i = 0 := by omega
      rw [pSum_zero, hhigh 0 le_rfl]
    · obtain ⟨mm, rfl⟩ : ∃ mm, m = mm + 1 := ⟨m - 1, by omega⟩
      rw [if_neg hm0]
      have hmlen : mm + 1 < t.length := by omega
      refine ⟨_, rfl, by simp [hlen], ?_, ?_⟩
      · intro i hi
        by_cases him : i = mm + 1
        · subst him
          rw [getD_set_self hmlen]
          simp only [Nat.add_sub_cancel]
          rw [pSum_succ, hhigh (mm + 1) le_rfl, hlow mm (by omega)]
          omega
        · rw [getD_set_ne (fun hh => him hh.symm)]
          exact hlow i (by omega)
      · intro i hi
        rw [getD_set_ne (by omega)]
        exact hhigh i (by omega)



theorem exclSum_zero (ks : List ℕ) : exclSum ks 0 = 0 := rfl

theorem exclSum_succ (ks : List ℕ) (b : ℕ) :
    exclSum ks (b + 1) = exclSum ks b + ks.count b := by
  unfold exclSum
  rw [List.range_succ, List.map_append, List.sum_append]
  simp

theorem exclSum_mono (ks : List ℕ) {b b' : ℕ} (h : b ≤ b') :
    exclSum ks b ≤ exclSum ks b' := by
  induction b' with
  | zero =>
    obtain rfl : b = 0 := by omega
    exact le_rfl
  | succ m ih =>
    rcases Nat.lt_or_ge b (m + 1) with hlt | hge
    · calc exclSum ks b ≤ exclSum ks m := ih (by omega)
        _ ≤ exclSum ks (m + 1) := by rw [exclSum_succ]; omega
    · obtain rfl : b = m + 1 := by omega
      exact le_rfl

theorem sum_indicator_range (n k : ℕ) (hk : k < n) :
    ((List.range n).map (fun b => if k = b then 1 else 0)).sum = 1 := by
  induction n with
  | zero => omega
  | succ m ih =>
    rw [List.range_succ, List.map_append, List.sum_append]
    rcases Nat.lt_or_ge k m with hlt | hge
    · rw [ih hlt]
      simp [show k ≠ m from by omega]
    · obtain rfl : k = m := by omega
      simp only [List.map_cons, List.map_nil, if_pos rfl]
      have : ((List.range k).map (fun b => if k = b then 1 else 0)).sum = 0 := by
        rw [List.sum_eq_zero]
        intro x hx
        simp only [List.mem_map, List.mem_range] at hx
        obtain ⟨b, hb, rfl⟩ := hx
        simp [show k ≠ b from by omega]
      rw [this]
      simp

theorem sum_map_add_nat {α : Type} (l : List α) (f g : α → ℕ) :
    (l.map (fun x => f x + g x)).sum = (l.map f).sum + (l.map g).sum := by
  induction l with
  | nil => rfl
  | cons a t ih => simp [ih]; omega

theorem exclSum_cons (k : ℕ) (ks : List ℕ) (n : ℕ) (hk : k < n) :
    exclSum (k :: ks) n = exclSum ks n + 1 := by
  unfold exclSum
  have hpt : ∀ b, (k :: ks).count b = ks.count b + (if k = b then 1 else 0) := by
    intro b
    rw [List.count_cons]
    by_cases hkb : k = b
    · simp [hkb]
    · simp [hkb, beq_eq_false_iff_ne.mpr hkb]
  rw [List.map_congr_left (fun b _ => hpt b), sum_map_add_nat, sum_indicator_range n k hk]

theorem exclSum_length (ks : List ℕ) (n : ℕ) (hall : ∀ x ∈ ks, x < n) :
    exclSum ks n = ks.length := by
  induction ks with
  | nil =>
    unfold exclSum
    rw [List.sum_eq_zero]
    · rfl
    · intro x hx
      simp only [List.mem_map] at hx
      obtain ⟨b, _, rfl⟩ := hx
      simp
  | cons k t ih =>
    rw [exclSum_cons k t n (hall k (List.mem_cons_self k t)), ih (fun x hx => hall x (List.mem_cons_of_mem k hx))]
    rfl



theorem occList_zero (ks : List ℕ) (b : ℕ) : occList ks 0 b = [] := rfl

theorem occList_succ (ks : List ℕ) (j b : ℕ) :
    occList ks (j + 1) b =
      if ks.getD j 0 = b then j :: occList ks j b else occList ks j b := by
  unfold occList
  simp only [List.getD]
  rw [List.range_succ, List.filter_append, List.reverse_append]
  by_cases h : ks[j]?.getD 0 = b
  · simp [h]
  · simp [h]

theorem occList_length (ks : List ℕ) (b : ℕ) :
    ∀ j, j ≤ ks.length → (occList ks j b).length = (ks.take j).count b := by
  intro j
  induction j with
  | zero => intro _; simp [occList_zero]
  | succ m ih =>
    intro hm
    have hmlen : m < ks.length := by omega
    rw [occList_succ, List.take_succ, List.getElem?_eq_getElem hmlen]
    simp only [Option.toList_some, List.count_append]
    by_cases h : ks.getD m 0 = b
    · rw [if_pos h]
      have : ks[m] = b := by rw [← List.getD_eq_getElem ks 0 hmlen, h]
      simp [this, ih (by omega)]
    · rw [if_neg h]
      have : ks[m] ≠ b := by rw [← List.getD_eq_getElem ks 0 hmlen]; exact h
      simp [List.count_singleton, beq_eq_false_iff_ne.mpr this, ih (by omega)]

theorem sliceOf_empty (l : List ℕ) (lo hi : ℕ) (h : hi ≤ lo) : sliceOf l lo hi = [] := by
  unfold sliceOf
  rw [show hi - lo = 0 from by omega]
  rfl

theorem sliceOf_getElem? (l : List ℕ) (lo hi i : ℕ) :
    (sliceOf l lo hi)[i]? = if i < hi - lo then l[lo + i]? else none := by
  unfold sliceOf
  rw [List.getElem?_take]
  by_cases h : i < hi - lo
  · rw [if_pos h, if_pos h, List.getElem?_drop]
  · rw [if_neg h, if_neg h]

theorem sliceOf_set_outside (l : List ℕ) (lo hi q v : ℕ) (h : q < lo ∨ hi ≤ q) :
    sliceOf (l.set q v) lo hi = sliceOf l lo hi := by
  apply List.ext_getElem?
  intro i
  rw [sliceOf_getElem?, sliceOf_getElem?]
  by_cases hi2 : i < hi - lo
  · rw [if_pos hi2, if_pos hi2, List.getElem?_set_ne]
    omega
  · rw [if_neg hi2, if_neg hi2]

theorem sliceOf_cons (l : List ℕ) (lo hi : ℕ) (h1 : lo < hi) (h2 : lo < l.length) :
    sliceOf l lo hi = l.getD lo 0 :: sliceOf l (lo + 1) hi := by
  apply List.ext_getElem?
  intro i
  rw [sliceOf_getElem?]
  cases i with
  | zero =>
    rw [if_pos (by omega)]
    simp [List.getD_eq_getElem l 0 h2, List.getElem?_eq_getElem h2]
  | succ m =>
    rw [List.getElem?_cons_succ, sliceOf_getElem?]
    by_cases hm : m < hi - (lo + 1)
    · rw [if_pos (by omega), if_pos hm]
      congr 1
      omega
    · rw [if_neg (by omega), if_neg hm]

theorem sliceOf_set_head (l : List ℕ) (lo hi v : ℕ) (h1 : lo < hi) (h2 : lo < l.length) :
    sliceOf (l.set lo v) lo hi = v :: sliceOf l (lo + 1) hi := by
  rw [sliceOf_cons _ _ _ h1 (by simpa using h2), getD_set_self (by simpa using h2),
    sliceOf_set_outside _ _ _ _ _ (Or.inl (by omega))]



theorem scatterAux_eq_scatterK (radius : ℚ) (n : ℕ) (hn : n ≠ 0) :
    ∀ (todo : List Particle) (j : ℕ) (st : List ℕ × List ℕ),
      scatterAux radius n j todo st = some (scatterK j (keysOf radius n todo) st) := by
  intro todo
  induction todo with
  | nil => intro j st; rfl
  | cons p rest ih =>
    intro j st
    obtain ⟨tbl, idxs⟩ := st
    show scatterAux radius n j (p :: rest) (tbl, idxs) = _
    unfold scatterAux
    simp only [bucketOf, if_neg hn]
    rw [ih (j + 1)]
    rfl

theorem scatterK_spec (ks : List ℕ) (n : ℕ) (hall : ∀ x ∈ ks, x < n) :
    ∀ (todo : List ℕ) (j : ℕ) (tbl idxs : List ℕ),
      todo = ks.drop j →
      j ≤ ks.length →
      tbl.length = n + 1 →
      idxs.length = ks.length →
      (∀ b, b ≤ n → tbl.getD b 0 = exclSum ks (b + 1) - (occList ks j b).length) →
      (∀ b, b < n → sliceOf idxs (tbl.getD b 0) (exclSum ks (b + 1)) = occList ks j b) →
      ∃ tblF idxsF, scatterK j todo (tbl, idxs) = (tblF, idxsF) ∧
        tblF.length = n + 1 ∧ idxsF.length = ks.length ∧
        (∀ b, b ≤ n → tblF.getD b 0 = exclSum ks b) ∧
        (∀ b, b < n →
          sliceOf idxsF (tblF.getD b 0) (exclSum ks (b + 1)) = occList ks ks.length b) := by
  intro todo
  induction todo with
  | nil =>
    intro j tbl idxs htodo hj hlen hilen htbl hslice
    obtain rfl : j = ks.length := by
      have := List.drop_eq_nil_iff.mp htodo.symm
      omega
    refine ⟨tbl, idxs, rfl, hlen, hilen, ?_, ?_⟩
    · intro b hb
      rw [htbl b hb, occList_length ks b ks.length le_rfl, List.take_length,
        exclSum_succ]
      omega
    · intro b hb
      exact hslice b hb
  | cons k rest ih =>
    intro j tbl idxs htodo hj hlen hilen htbl hslice
    have hjlt : j < ks.length := by
      by_contra hge
      rw [List.drop_eq_nil_iff.mpr (by omega)] at htodo
      cases htodo
    have hkj : ks.getD j 0 = k := by
      have h0 : (ks.drop j)[0]? = some k := by rw [← htodo]; simp
      rw [List.getElem?_drop, Nat.add_zero] at h0
      simp only [List.getD, List.get?_eq_getElem?, h0, Option.getD_some]
    have hkmem : k ∈ ks := by
      rw [← hkj, List.getD_eq_getElem ks 0 hjlt]
      exact List.getElem_mem hjlt
    have hkn : k < n := hall k hkmem
    -- counting facts
    have hocc_le : (occList ks j k).length ≤ (ks.take j).count k := by
      rw [occList_length ks k j (by omega)]
    have hocc_lt : (occList ks j k).length < ks.count k := by
      rw [occList_length ks k j (by omega)]
      have hsplit : ks.count k = (ks.take j).count k + (ks.drop j).count k := by
        rw [← List.count_append, List.take_append_drop]
      have hdropk : 0 < (ks.drop j).count k := by
        rw [← htodo]
        simp [List.count_cons]
      omega
    have hcnt_le : ks.count k ≤ exclSum ks (k + 1) - exclSum ks k := by
      rw [exclSum_succ]
      omega
    have hexcl_le_len : exclSum ks (k + 1) ≤ ks.length := by
      rw [← exclSum_length ks n hall]
      exact exclSum_mono ks (by omega)
    set v := tbl.getD k 0 with hv
    have hvval : v = exclSum ks (k + 1) - (occList ks j k).length := htbl k (by omega)
    have hv_lb : exclSum ks k < v := by
      rw [hvval, exclSum_succ]
      omega
    have hv_ub : v ≤ exclSum ks (k + 1) := by
      rw [hvval]; omega
    have hv1_len : v - 1 < idxs.length := by
      rw [hilen]; omega
    have hklen : k < tbl.length := by omega
    -- the step
    show ∃ tblF idxsF, scatterK (j + 1) rest (tbl.set k (v - 1), idxs.set (v - 1) j) = _ ∧ _
    have hocc_succ_k : occList ks (j + 1) k = j :: occList ks j k := by
      rw [occList_succ, if_pos hkj]
    have hocc_succ_ne : ∀ b, b ≠ k → occList ks (j + 1) b = occList ks j b := by
      intro b hb
      rw [occList_succ, if_neg (by rw [hkj]; exact fun hh => hb hh.symm)]
    apply ih (j + 1)
    · rw [show ks.drop (j + 1) = (ks.drop j).drop 1 from by rw [List.drop_drop]]
      rw [← htodo]
      rfl
    · omega
    · simp [hlen]
    · simp [hilen]
    · intro b hb
      by_cases hbk : b = k
      · subst hbk
        rw [getD_set_self hklen, hocc_succ_k]
        simp only [List.length_cons]
        omega
      · rw [getD_set_ne (fun hh => hbk hh.symm), hocc_succ_ne b hbk]
        exact htbl b hb
    · intro b hb
      by_cases hbk : b = k
      · subst hbk
        rw [getD_set_self hklen, hocc_succ_k]
        have hstep : v - 1 + 1 = v := by omega
        rw [sliceOf_set_head idxs (v - 1) (exclSum ks (b + 1)) j (by omega) hv1_len,
          hstep]
        congr 1
        rw [← hslice b hb, ← hv]
      · have hbtbl : exclSum ks b ≤ tbl.getD b 0 := by
          rw [htbl b (by omega), exclSum_succ]
          have : (occList ks j b).length ≤ (ks.take j).count b :=
            le_of_eq (occList_length ks b j (by omega))
          have : (ks.take j).count b ≤ ks.count b :=
            (List.take_sublist j ks).count_le b
          omega
        rw [getD_set_ne (fun hh => hbk hh.symm), hocc_succ_ne b hbk,
          sliceOf_set_outside]
        · exact hslice b hb
        · rcases Nat.lt_or_ge b k with hblt | hbgt
          · right
            have : exclSum ks (b + 1) ≤ exclSum ks k := exclSum_mono ks (by omega)
            omega
          · left
            have hbk' : k < b := by omega
            have : exclSum ks (k + 1) ≤ exclSum ks b := exclSum_mono ks (by omega)
            omega



theorem getD_replicate (m b : ℕ) : (List.replicate m (0 : ℕ)).getD b 0 = 0 := by
  unfold List.getD
  rw [List.get?_eq_getElem?, List.getElem?_replicate]
  split <;> rfl

theorem keysOf_length (radius : ℚ) (n : ℕ) (ps : List Particle) :
    (keysOf radius n ps).length = ps.length := by
  simp [keysOf]

theorem keysOf_getD (radius : ℚ) (n : ℕ) (ps : List Particle) (j : ℕ)
    (h : j < ps.length) :
    (keysOf radius n ps).getD j 0 =
      hashCell (cellCoord radius (ps.getD j default).position) % n := by
  have hk : j < (keysOf radius n ps).length := by rw [keysOf_length]; exact h
  rw [List.getD_eq_getElem _ _ hk, List.getD_eq_getElem _ _ h]
  simp [keysOf]

theorem keysOf_lt (radius : ℚ) (n : ℕ) (hn : n ≠ 0) (ps : List Particle) :
    ∀ x ∈ keysOf radius n ps, x < n := by
  intro x hx
  simp only [keysOf, List.mem_map] at hx
  obtain ⟨p, _, rfl⟩ := hx
  exact Nat.mod_lt _ (Nat.pos_of_ne_zero hn)

theorem buildIndex_spec (radius : ℚ) (ps : List Particle) (hne : ps ≠ []) :
    ∃ tbl idxs,
      buildIndex radius ps = some (tbl, idxs) ∧
      tbl.length = ps.length + 1 ∧ idxs.length = ps.length ∧
      (∀ b, b ≤ ps.length →
        tbl.getD b 0 = exclSum (keysOf radius ps.length ps) b) ∧
      (∀ b, b < ps.length →
        sliceOf idxs (exclSum (keysOf radius ps.length ps) b)
            (exclSum (keysOf radius ps.length ps) (b + 1)) =
          occList (keysOf radius ps.length ps) ps.length b) := by
  set n := ps.length with hN
  have hn : n ≠ 0 := by
    intro h0
    exact hne (List.length_eq_zero.mp (hN ▸ h0.symm ▸ rfl))
  set ks := keysOf radius n ps with hks
  have hall : ∀ x ∈ ks, x < n := keysOf_lt radius n hn ps
  have hkslen : ks.length = n := keysOf_length radius n ps
  -- count pass
  obtain ⟨cTbl, hcfold, hclen, hcval⟩ :=
    countPass_fold radius n hn ps (List.replicate (n + 1) 0) (by simp)
  have hcval' : ∀ b, cTbl.getD b 0 = ks.count b := by
    intro b
    rw [hcval b, getD_replicate, ← hks, Nat.zero_add]
  -- prefix pass
  obtain ⟨pTbl, hpfold, hplen, hplow, _⟩ := prefixPass_go cTbl cTbl.length le_rfl
  have hpexcl : ∀ b, b ≤ n → pTbl.getD b 0 = exclSum ks (b + 1) := by
    intro b hb
    rw [hplow b (by omega)]
    unfold pSum exclSum
    congr 1
    exact List.map_congr_left (fun k _ => hcval' k)
  -- scatter
  obtain ⟨tblF, idxsF, hsk, hflen, hfilen, hftbl, hfslice⟩ :=
    scatterK_spec ks n hall ks 0 pTbl (List.replicate n 0) (by simp) (by omega)
      (by omega) (by simp [hkslen])
      (by
        intro b hb
        rw [hpexcl b hb, occList_zero]
        rfl)
      (by
        intro b hb
        rw [hpexcl b (by omega), occList_zero]
        exact sliceOf_empty _ _ _ le_rfl)
  refine ⟨tblF, idxsF, ?_, by omega, by omega, ?_, ?_⟩
  · unfold buildIndex
    dsimp only
    rw [← hN]
    rw [show countPass radius n ps = some cTbl from hcfold]
    dsimp only
    rw [show prefixPass cTbl = pTbl from by
      unfold prefixPass
      exact hpfold]
    rw [scatterAux_eq_scatterK radius n hn ps 0 (pTbl, List.replicate n 0), ← hks, hsk]
  · intro b hb
    exact hftbl b (by omega)
  · intro b hb
    have h1 := hfslice b (by omega)
    rw [hftbl b (by omega)] at h1
    rw [h1, hkslen]



theorem flatMap_perm_congr {α β : Type} (bs : List α) (f g : α → List β)
    (h : ∀ b ∈ bs, List.Perm (f b) (g b)) :
    List.Perm (bs.flatMap f) (bs.flatMap g) := by
  induction bs with
  | nil => rfl
  | cons b t ih =>
    rw [List.flatMap_cons, List.flatMap_cons]
    exact (h b (List.mem_cons_self b t)).append
      (ih (fun x hx => h x (List.mem_cons_of_mem b hx)))

theorem flatMap_congr_left {α β : Type} (bs : List α) (f g : α → List β)
    (h : ∀ b ∈ bs, f b = g b) : bs.flatMap f = bs.flatMap g := by
  induction bs with
  | nil => rfl
  | cons b t ih =>
    rw [List.flatMap_cons, List.flatMap_cons, h b (List.mem_cons_self b t),
      ih (fun x hx => h x (List.mem_cons_of_mem b hx))]

theorem flatMap_nil_const {α β : Type} (bs : List α) :
    bs.flatMap (fun _ => ([] : List β)) = [] := by
  induction bs with
  | nil => rfl
  | cons b t ih => rw [List.flatMap_cons, ih]; rfl

theorem flatMap_filter_perm {α : Type} (key : α → ℕ) :
    ∀ (l : List α) (bs : List ℕ), bs.Nodup → (∀ x ∈ l, key x ∈ bs) →
      List.Perm (bs.flatMap (fun b => l.filter (fun x => key x = b))) l := by
  intro l
  induction l with
  | nil =>
    intro bs _ _
    rw [flatMap_congr_left bs (fun b => List.filter (fun x => decide (key x = b)) [])
      (fun _ => []) (fun b _ => rfl), flatMap_nil_const]
  | cons x t ih =>
    intro bs hnd hmem
    have hx : key x ∈ bs := hmem x (List.mem_cons_self x t)
    obtain ⟨bs1, bs2, rfl⟩ := List.append_of_mem hx
    have hnd2 := hnd
    rw [List.nodup_append] at hnd2
    obtain ⟨h1, h2, hdisj⟩ := hnd2
    have hnotin1 : key x ∉ bs1 := fun hin => hdisj hin (List.mem_cons_self _ _)
    have hnotin2 : key x ∉ bs2 := (List.nodup_cons.mp h2).1
    have hfilter_ne : ∀ b, b ≠ key x →
        (x :: t).filter (fun y => key y = b) = t.filter (fun y => key y = b) := by
      intro b hb
      rw [List.filter_cons_of_neg]
      simp only [decide_eq_true_eq]
      exact fun hh => hb hh.symm
    have hne1 : ∀ b ∈ bs1, (x :: t).filter (fun y => key y = b) =
        t.filter (fun y => key y = b) := by
      intro b hb
      refine hfilter_ne b ?_
      intro hh
      exact hnotin1 (hh ▸ hb)
    have hne2 : ∀ b ∈ bs2, (x :: t).filter (fun y => key y = b) =
        t.filter (fun y => key y = b) := by
      intro b hb
      refine hfilter_ne b ?_
      intro hh
      exact hnotin2 (hh ▸ hb)
    have hfilter_eq : (x :: t).filter (fun y => key y = key x) =
        x :: t.filter (fun y => key y = key x) := by
      rw [List.filter_cons_of_pos]
      simp
    rw [List.flatMap_append, List.flatMap_cons]
    rw [flatMap_congr_left bs1 (fun b => (x :: t).filter (fun y => key y = b))
      (fun b => t.filter (fun y => key y = b)) hne1]
    rw [flatMap_congr_left bs2 (fun b => (x :: t).filter (fun y => key y = b))
      (fun b => t.filter (fun y => key y = b)) hne2]
    rw [hfilter_eq]
    rw [show (x :: t.filter (fun y => key y = key x)) ++
        bs2.flatMap (fun b => t.filter (fun y => key y = b)) =
        x :: (t.filter (fun y => key y = key x) ++
          bs2.flatMap (fun b => t.filter (fun y => key y = b))) from rfl]
    refine List.Perm.trans List.perm_middle ?_
    refine List.Perm.cons x ?_
    rw [show bs1.flatMap (fun b => t.filter (fun y => key y = b)) ++
        (t.filter (fun y => key y = key x) ++
          bs2.flatMap (fun b => t.filter (fun y => key y = b))) =
        (bs1 ++ key x :: bs2).flatMap (fun b => t.filter (fun y => key y = b)) from by
      rw [List.flatMap_append, List.flatMap_cons]]
    exact ih (bs1 ++ key x :: bs2) hnd
      (fun y hy => hmem y (List.mem_cons_of_mem x hy))



theorem take_excl_flatMap (ks : List ℕ) (idxs : List ℕ) (n : ℕ) :
    ∀ m, m ≤ n →
      idxs.take (exclSum ks m) =
        (List.range m).flatMap
          (fun b => sliceOf idxs (exclSum ks b) (exclSum ks (b + 1))) := by
  intro m
  induction m with
  | zero => intro _; rfl
  | succ m ih =>
    intro hm
    rw [exclSum_succ, List.take_add, ih (by omega), List.range_succ,
      List.flatMap_append]
    congr 1
    show (idxs.drop (exclSum ks m)).take (ks.count m) = _
    rw [List.flatMap_cons, List.flatMap_nil, List.append_nil]
    unfold sliceOf
    rw [show exclSum ks (m + 1) - exclSum ks m = ks.count m from by
      rw [exclSum_succ]; omega]

/-- Combined index-builder correctness: permutation plus exact bucket
slices. -/
theorem indexPermSlices (radius : ℚ) (ps : List Particle) (hne : ps ≠ []) :
    ∃ tbl idxs,
      buildIndex radius ps = some (tbl, idxs) ∧
      List.Perm idxs (List.range ps.length) ∧
      ∀ b, b < ps.length →
        bucketSlice tbl idxs b =
          ((List.range ps.length).filter (fun j =>
            hashCell (cellCoord radius ((ps.getD j default).position)) % ps.length
              = b)).reverse := by
  obtain ⟨tbl, idxs, hbuild, htlen, hilen, htbl, hslice⟩ := buildIndex_spec radius ps hne
  set n := ps.length with hN
  have hn : n ≠ 0 := by
    intro h0
    exact hne (List.length_eq_zero.mp (hN ▸ h0.symm ▸ rfl))
  set ks := keysOf radius n ps with hks
  have hall : ∀ x ∈ ks, x < n := keysOf_lt radius n hn ps
  have hkslen : ks.length = n := keysOf_length radius n ps
  have hocc_filter : ∀ b, occList ks n b =
      ((List.range n).filter (fun j =>
        hashCell (cellCoord radius ((ps.getD j default).position)) % n = b)).reverse := by
    intro b
    unfold occList
    congr 1
    apply List.filter_congr
    intro j hj
    have hjn : j < ps.length := by
      rw [← hN]
      exact List.mem_range.mp hj
    rw [keysOf_getD radius n ps j hjn]
  have hslice' : ∀ b, b < n → bucketSlice tbl idxs b = occList ks n b := by
    intro b hb
    show sliceOf idxs (tbl.getD b 0) (tbl.getD (b + 1) 0) = _
    rw [htbl b (by omega), htbl (b + 1) (by omega)]
    exact hslice b hb
  refine ⟨tbl, idxs, hbuild, ?_, ?_⟩
  · -- permutation
    have hidxs : idxs = (List.range n).flatMap
        (fun b => sliceOf idxs (exclSum ks b) (exclSum ks (b + 1))) := by
      have h1 := take_excl_flatMap ks idxs n n le_rfl
      rw [show exclSum ks n = idxs.length from by
        rw [exclSum_length ks n hall, hkslen, hilen], List.take_length] at h1
      exact h1
    rw [hidxs]
    have hstep1 : List.Perm
        ((List.range n).flatMap
          (fun b => sliceOf idxs (exclSum ks b) (exclSum ks (b + 1))))
        ((List.range n).flatMap
          (fun b => (List.range n).filter (fun j => ks.getD j 0 = b))) := by
      apply flatMap_perm_congr
      intro b hb
      rw [hslice b (List.mem_range.mp hb)]
      unfold occList
      exact List.reverse_perm _
    refine hstep1.trans ?_
    exact flatMap_filter_perm (fun j => ks.getD j 0) (List.range n) (List.range n)
      (List.nodup_range n)
      (by
        intro j hj
        rw [List.mem_range]
        have hjn : j < ks.length := by rw [hkslen]; exact List.mem_range.mp hj
        show ks.getD j 0 < n
        rw [List.getD_eq_getElem ks 0 hjn]
        exact hall _ (List.getElem_mem hjn))
  · intro b hb
    rw [hslice' b hb, hocc_filter b]

/-- C5: for every non-empty particle list, the three passes produce a
particle-index array that is a permutation of `0..N`, and the slice
`particle_indices[offsets[b] .. offsets[b+1]]` of every bucket `b` holds
exactly the indices of the particles whose hashed cell maps (mod `N`) to
`b` (in reverse array order — the scatter fills buckets from the top). -/
theorem claim_C5 (radius : ℚ) (ps : List Particle) (hne : ps ≠ []) :
    ∃ tbl idxs,
      buildIndex radius ps = some (tbl, idxs) ∧
      List.Perm idxs (List.range ps.length) ∧
      ∀ b, b < ps.length →
        bucketSlice tbl idxs b =
          ((List.range ps.length).filter (fun j =>
            hashCell (cellCoord radius ((ps.getD j default).position)) % ps.length
              = b)).reverse :=
  indexPermSlices radius ps hne

theorem claim_C5_witness :
    ([partA, partB] : List Particle) ≠ [] ∧
    (∃ tbl idxs,
      buildIndex 2 [partA, partB] = some (tbl, idxs) ∧
      List.Perm idxs (List.range ([partA, partB] : List Particle).length) ∧
      ∀ b, b < ([partA, partB] : List Particle).length →
        bucketSlice tbl idxs b =
          ((List.range ([partA, partB] : List Particle).length).filter (fun j =>
            hashCell (cellCoord 2 ((([partA, partB] : List Particle).getD j
              default).position)) % ([partA, partB] : List Particle).length
              = b)).reverse) :=
  ⟨by simp, claim_C5 2 [partA, partB] (by simp)⟩

/-! dev: totalization of the force scan -/

theorem foldlO_eq_foldl {α β : Type} (f : β → α → Option β) (g : β → α → β)
    (l : List α) (h : ∀ b a, a ∈ l → f b a = some (g b a)) :
    ∀ b, foldlO f b l = some (l.foldl g b) := by
  induction l with
  | nil => intro b; rfl
  | cons a t ih =>
    intro b
    rw [foldlO, h b a (List.mem_cons_self a t)]
    exact ih (fun b' x hx => h b' x (List.mem_cons_of_mem a hx)) (g b a)

theorem foldl_add_map_sum {α : Type} (f : α → Vec3) (l : List α) :
    ∀ acc : Vec3, l.foldl (fun acc x => acc + f x) acc = acc + (l.map f).sum := by
  induction l with
  | nil => intro acc; simp
  | cons a t ih =>
    intro acc
    rw [List.foldl_cons, ih (acc + f a), List.map_cons, List.sum_cons, add_assoc]

theorem pairForce_eq_pairForceD (s : Particles) (p other : Particle) (offset : Vec3)
    (hp : p.id < s.id_count) (ho : other.id < s.id_count)
    (hm : s.attraction_matrix.length = s.id_count * s.id_count) :
    pairForce s p other offset = some (pairForceD s p other offset) := by
  unfold pairForce pairForceD
  dsimp only
  split_ifs with h
  · have hidx : p.id * s.id_count + other.id < s.attraction_matrix.length := by
      rw [hm]
      have h1 : p.id + 1 ≤ s.id_count := hp
      calc p.id * s.id_count + other.id < p.id * s.id_count + s.id_count := by omega
        _ = (p.id + 1) * s.id_count := by ring
        _ ≤ s.id_count * s.id_count := Nat.mul_le_mul_right _ h1
    rw [List.get?_eq_getElem?, List.getElem?_eq_getElem hidx]
    rw [List.getD_eq_getElem _ _ hidx]
  · rfl

theorem scanSlice_total (s : Particles) (prev : List Particle) (p : Particle)
    (offset : Vec3) (slice : List ℕ) (acc : Vec3)
    (hp : p.id < s.id_count) (hall : ∀ q ∈ prev, q.id < s.id_count)
    (hm : s.attraction_matrix.length = s.id_count * s.id_count) :
    scanSlice s prev p offset slice acc =
      some (acc + (slice.map
        (fun j => pairForceD s p (prev.getD j default) offset)).sum) := by
  have hother : ∀ j : ℕ, (prev.getD j default).id < s.id_count := by
    intro j
    by_cases hj : j < prev.length
    · rw [List.getD_eq_getElem _ _ hj]
      exact hall _ (List.getElem_mem hj)
    · rw [List.getD_eq_default _ _ (by omega)]
      show 0 < s.id_count
      omega
  unfold scanSlice
  rw [foldlO_eq_foldl _ (fun acc j => acc + pairForceD s p (prev.getD j default) offset)
    slice ?_ acc, foldl_add_map_sum]
  intro b j _
  rw [pairForce_eq_pairForceD s p _ offset hp (hother j) hm]

theorem scanCell_total (s : Particles) (tbl idxs : List ℕ) (prev : List Particle)
    (p : Particle) (offset : Vec3) (acc : Vec3) (cell' : ICell)
    (hn : prev.length ≠ 0)
    (hp : p.id < s.id_count) (hall : ∀ q ∈ prev, q.id < s.id_count)
    (hm : s.attraction_matrix.length = s.id_count * s.id_count) :
    scanCell s tbl idxs prev p offset acc cell' =
      some (acc + ((bucketSlice tbl idxs (hashCell cell' % prev.length)).map
        (fun j => pairForceD s p (prev.getD j default) offset)).sum) := by
  unfold scanCell
  rw [show bucketOf prev.length cell' = some (hashCell cell' % prev.length) from by
    unfold bucketOf; rw [if_neg hn]]
  exact scanSlice_total s prev p offset _ acc hp hall hm

theorem scanOffset_total (s : Particles) (tbl idxs : List ℕ) (prev : List Particle)
    (p : Particle) (acc : Vec3) (o : ℤ × ℤ × ℤ)
    (hn : prev.length ≠ 0)
    (hp : p.id < s.id_count) (hall : ∀ q ∈ prev, q.id < s.id_count)
    (hm : s.attraction_matrix.length = s.id_count * s.id_count) :
    scanOffset s tbl idxs prev p acc o =
      some (acc + (offsets27.map (fun co =>
        ((bucketSlice tbl idxs
            (hashCell
              ((cellCoord s.particle_effect_radius
                (p.position + offsetVec s.world_size o)).1 + co.1,
               (cellCoord s.particle_effect_radius
                (p.position + offsetVec s.world_size o)).2.1 + co.2.1,
               (cellCoord s.particle_effect_radius
                (p.position + offsetVec s.world_size o)).2.2 + co.2.2) % prev.length)).map
          (fun j => pairForceD s p (prev.getD j default)
            (offsetVec s.world_size o))).sum)).sum) := by
  unfold scanOffset
  rw [foldlO_eq_foldl _
    (fun acc (co : ℤ × ℤ × ℤ) => acc +
      ((bucketSlice tbl idxs
          (hashCell
            ((cellCoord s.particle_effect_radius
              (p.position + offsetVec s.world_size o)).1 + co.1,
             (cellCoord s.particle_effect_radius
              (p.position + offsetVec s.world_size o)).2.1 + co.2.1,
             (cellCoord s.particle_effect_radius
              (p.position + offsetVec s.world_size o)).2.2 + co.2.2) % prev.length)).map
        (fun j => pairForceD s p (prev.getD j default)
          (offsetVec s.world_size o))).sum)
    offsets27 ?_ acc, foldl_add_map_sum]
  intro b co _
  exact scanCell_total s tbl idxs prev p (offsetVec s.world_size o) b _ hn hp hall hm

theorem totalForce_total (s : Particles) (tbl idxs : List ℕ) (prev : List Particle)
    (p : Particle)
    (hn : prev.length ≠ 0)
    (hp : p.id < s.id_count) (hall : ∀ q ∈ prev, q.id < s.id_count)
    (hm : s.attraction_matrix.length = s.id_count * s.id_count) :
    totalForce s tbl idxs prev p =
      some ((offsets27.map (fun o => (offsets27.map (fun co =>
        ((bucketSlice tbl idxs
            (hashCell
              ((cellCoord s.particle_effect_radius
                (p.position + offsetVec s.world_size o)).1 + co.1,
               (cellCoord s.particle_effect_radius
                (p.position + offsetVec s.world_size o)).2.1 + co.2.1,
               (cellCoord s.particle_effect_radius
                (p.position + offsetVec s.world_size o)).2.2 + co.2.2) % prev.length)).map
          (fun j => pairForceD s p (prev.getD j default)
            (offsetVec s.world_size o))).sum)).sum)).sum) := by
  unfold totalForce
  rw [foldlO_eq_foldl _
    (fun acc (o : ℤ × ℤ × ℤ) => acc + (offsets27.map (fun co =>
      ((bucketSlice tbl idxs
          (hashCell
            ((cellCoord s.particle_effect_radius
              (p.position + offsetVec s.world_size o)).1 + co.1,
             (cellCoord s.particle_effect_radius
              (p.position + offsetVec s.world_size o)).2.1 + co.2.1,
             (cellCoord s.particle_effect_radius
              (p.position + offsetVec s.world_size o)).2.2 + co.2.2) % prev.length)).map
        (fun j => pairForceD s p (prev.getD j default)
          (offsetVec s.world_size o))).sum)).sum)
    offsets27 ?_ 0, foldl_add_map_sum, zero_add]
  intro b o _
  exact scanOffset_total s tbl idxs prev p b o hn hp hall hm

/-! dev: sum regrouping -/

theorem sum_map_reverse {α : Type} (l : List α) (f : α → Vec3) :
    (l.reverse.map f).sum = (l.map f).sum := by
  rw [List.map_reverse, List.sum_reverse]

theorem sum_map_filter_eq_sum_ite {α : Type} (l : List α) (P : α → Bool) (f : α → Vec3) :
    ((l.filter P).map f).sum = (l.map (fun x => if P x then f x else 0)).sum := by
  induction l with
  | nil => rfl
  | cons a t ih =>
    by_cases h : P a
    · rw [List.filter_cons_of_pos h, List.map_cons, List.sum_cons, ih,
        List.map_cons, List.sum_cons, if_pos h]
    · rw [List.filter_cons_of_neg (by simp [h]), ih, List.map_cons, List.sum_cons,
        if_neg h, zero_add]

theorem sum_map_add {α : Type} (l : List α) (f g : α → Vec3) :
    (l.map (fun x => f x + g x)).sum = (l.map f).sum + (l.map g).sum := by
  induction l with
  | nil => simp
  | cons a t ih =>
    simp only [List.map_cons, List.sum_cons, ih]
    abel

theorem sum_sum_comm {α β : Type} (l1 : List α) (l2 : List β) (f : α → β → Vec3) :
    (l1.map (fun a => (l2.map (f a)).sum)).sum =
      (l2.map (fun b => (l1.map (fun a => f a b)).sum)).sum := by
  induction l1 with
  | nil =>
    simp
  | cons a t ih =>
    rw [List.map_cons, List.sum_cons, ih, ← sum_map_add]
    apply congrArg List.sum
    apply List.map_congr_left
    intro b _
    rw [List.map_cons, List.sum_cons]

theorem sum_map_ite_const {α : Type} (l : List α) (Q : α → Prop) [DecidablePred Q]
    (v : Vec3) :
    (l.map (fun a => if Q a then v else 0)).sum =
      (l.countP (fun a => decide (Q a))) • v := by
  induction l with
  | nil => simp
  | cons a t ih =>
    rw [List.map_cons, List.sum_cons, ih, List.countP_cons]
    by_cases h : Q a
    · rw [if_pos h, if_pos (by simp [h]), add_nsmul, one_nsmul, add_comm]
    · rw [if_neg h, if_neg (by simp [h]), zero_add, add_zero]

/-! dev: truncation completeness -/

theorem truncQ_of_neg {q : ℚ} (h : q < 0) : truncQ q = ⌈q⌉ := by
  rw [truncQ_eq, if_neg (not_le.mpr h), ← Int.ceil_neg, neg_neg]

theorem truncQ_diff {x y : ℚ} (h1 : y ≤ x) (h2 : x - y < 1) :
    truncQ y ≤ truncQ x ∧ truncQ x ≤ truncQ y + 1 := by
  rcases le_or_lt 0 y with hy | hy
  · have hx : (0 : ℚ) ≤ x := le_trans hy h1
    rw [truncQ_of_nonneg hy, truncQ_of_nonneg hx]
    refine ⟨Int.floor_le_floor h1, ?_⟩
    have : x < y + 1 := by linarith
    calc ⌊x⌋ ≤ ⌊y + 1⌋ := Int.floor_le_floor this.le
      _ = ⌊y⌋ + 1 := by rw [show (y + 1 : ℚ) = y + (1 : ℤ) from by push_cast; ring,
        Int.floor_add_int]
  · rcases le_or_lt 0 x with hx | hx
    · have hxlt : x < 1 := by linarith
      have hygt : (-1 : ℚ) < y := by linarith
      rw [truncQ_of_nonneg hx, truncQ_of_neg hy]
      have hfx : ⌊x⌋ = 0 := Int.floor_eq_zero_iff.mpr ⟨hx, hxlt⟩
      have hcy : ⌈y⌉ = 0 := by
        rw [Int.ceil_eq_iff]
        constructor
        · push_cast; linarith
        · push_cast; linarith
      rw [hfx, hcy]
      omega
    · rw [truncQ_of_neg hy, truncQ_of_neg hx]
      refine ⟨Int.ceil_le_ceil h1, ?_⟩
      have : x < y + 1 := by linarith
      calc ⌈x⌉ ≤ ⌈y + 1⌉ := Int.ceil_le_ceil this.le
        _ = ⌈y⌉ + 1 := by rw [show (y + 1 : ℚ) = y + (1 : ℤ) from by push_cast; ring,
          Int.ceil_add_int]

theorem truncQ_close {u v : ℚ} (h : |u - v| < 1) :
    -1 ≤ truncQ u - truncQ v ∧ truncQ u - truncQ v ≤ 1 := by
  rcases le_total v u with hle | hle
  · have := truncQ_diff hle (by rw [abs_of_nonneg (by linarith)] at h; linarith)
    omega
  · have := truncQ_diff hle (by rw [abs_of_nonpos (by linarith)] at h; linarith)
    omega

theorem mem_offsets27 (c : ℤ × ℤ × ℤ)
    (h1 : -1 ≤ c.1 ∧ c.1 ≤ 1) (h2 : -1 ≤ c.2.1 ∧ c.2.1 ≤ 1)
    (h3 : -1 ≤ c.2.2 ∧ c.2.2 ≤ 1) : c ∈ offsets27 := by
  obtain ⟨a, b, d⟩ := c
  simp only at h1 h2 h3
  unfold offsets27
  simp only [List.mem_flatMap, List.mem_map]
  refine ⟨a, ?_, b, ?_, ⟨d, ?_, rfl⟩⟩
  · have : a = -1 ∨ a = 0 ∨ a = 1 := by omega
    rcases this with rfl | rfl | rfl <;> simp
  · have : b = -1 ∨ b = 0 ∨ b = 1 := by omega
    rcases this with rfl | rfl | rfl <;> simp
  · have : d = -1 ∨ d = 0 ∨ d = 1 := by omega
    rcases this with rfl | rfl | rfl <;> simp

theorem sq_lt_of_mag2 (v : Vec3) (R : ℚ) (h : Vec3.magnitude2 v < R * R) (hR : 0 < R) :
    |v.1| < R ∧ |v.2.1| < R ∧ |v.2.2| < R := by
  unfold Vec3.magnitude2 at h
  refine ⟨?_, ?_, ?_⟩ <;>
    [skip; skip; skip] <;>
    rw [abs_lt] <;>
    constructor <;>
    nlinarith [mul_self_nonneg v.1, mul_self_nonneg v.2.1, mul_self_nonneg v.2.2]

theorem cellCoord_mem_neighborhood (R : ℚ) (hR : 0 < R) (a b : Vec3)
    (h : Vec3.magnitude2 (b - a) < R * R) :
    ∃ co ∈ offsets27,
      cellCoord R b =
        ((cellCoord R a).1 + co.1, (cellCoord R a).2.1 + co.2.1,
         (cellCoord R a).2.2 + co.2.2) := by
  obtain ⟨h1, h2, h3⟩ := sq_lt_of_mag2 (b - a) R h hR
  have hc1 : |b.1 / R - a.1 / R| < 1 := by
    rw [div_sub_div_same, abs_div, abs_of_pos hR, div_lt_one hR]
    simpa using h1
  have hc2 : |b.2.1 / R - a.2.1 / R| < 1 := by
    rw [div_sub_div_same, abs_div, abs_of_pos hR, div_lt_one hR]
    simpa using h2
  have hc3 : |b.2.2 / R - a.2.2 / R| < 1 := by
    rw [div_sub_div_same, abs_div, abs_of_pos hR, div_lt_one hR]
    simpa using h3
  obtain ⟨hd1a, hd1b⟩ := truncQ_close hc1
  obtain ⟨hd2a, hd2b⟩ := truncQ_close hc2
  obtain ⟨hd3a, hd3b⟩ := truncQ_close hc3
  refine ⟨(truncQ (b.1 / R) - truncQ (a.1 / R),
           truncQ (b.2.1 / R) - truncQ (a.2.1 / R),
           truncQ (b.2.2 / R) - truncQ (a.2.2 / R)),
    mem_offsets27 _ ⟨hd1a, hd1b⟩ ⟨hd2a, hd2b⟩ ⟨hd3a, hd3b⟩, ?_⟩
  show (truncQ (b.1 / R), truncQ (b.2.1 / R), truncQ (b.2.2 / R)) = _
  simp only [cellCoord]
  refine Prod.ext ?_ (Prod.ext ?_ ?_) <;> dsimp only <;> omega

theorem bucketMult_pos (n : ℕ) (base cellb : ICell)
    (hco : ∃ co ∈ offsets27,
      cellb = (base.1 + co.1, base.2.1 + co.2.1, base.2.2 + co.2.2)) :
    1 ≤ bucketMult n base (hashCell cellb % n) := by
  obtain ⟨co, hmem, hceq⟩ := hco
  unfold bucketMult
  have : co ∈ offsets27.filter (fun co =>
      hashCell (base.1 + co.1, base.2.1 + co.2.1, base.2.2 + co.2.2) % n =
        hashCell cellb % n) := by
    rw [List.mem_filter]
    exact ⟨hmem, by rw [← hceq]; simp⟩
  calc 1 ≤ _ := List.length_pos.mpr (List.ne_nil_of_mem this)

/-! dev: regrouping -/

theorem regroup_generic (n : ℕ) (hn : n ≠ 0) (tbl idxs : List ℕ)
    (key : ℕ → ℕ) (c : ℕ → Vec3) (base : ICell)
    (hslices : ∀ b, b < n → bucketSlice tbl idxs b =
      ((List.range n).filter (fun j => key j = b)).reverse) :
    (offsets27.map (fun co =>
      ((bucketSlice tbl idxs
        (hashCell (base.1 + co.1, base.2.1 + co.2.1, base.2.2 + co.2.2) % n)).map
          c).sum)).sum =
    ((List.range n).map (fun j => bucketMult n base (key j) • c j)).sum := by
  have hstep : ∀ co : ℤ × ℤ × ℤ,
      ((bucketSlice tbl idxs
        (hashCell (base.1 + co.1, base.2.1 + co.2.1, base.2.2 + co.2.2) % n)).map
          c).sum =
      ((List.range n).map (fun j =>
        if key j = hashCell (base.1 + co.1, base.2.1 + co.2.1, base.2.2 + co.2.2) % n
        then c j else 0)).sum := by
    intro co
    rw [hslices _ (Nat.mod_lt _ (Nat.pos_of_ne_zero hn)), sum_map_reverse,
      sum_map_filter_eq_sum_ite]
    simp only [decide_eq_true_eq]
  rw [List.map_congr_left (fun co _ => hstep co), sum_sum_comm]
  apply congrArg List.sum
  apply List.map_congr_left
  intro j _
  rw [sum_map_ite_const]
  congr 1
  unfold bucketMult
  rw [← List.countP_eq_length_filter]
  apply List.countP_congr
  intro co _
  simp only [decide_eq_true_eq]
  constructor
  · intro h; omega
  · intro h; omega

/-- C1 (amended): the net force computed through the hash grid equals the
multiplicity-weighted brute force `weightedRef`, in which each pair is
counted once per scanned cell whose hash bucket equals the neighbor's bucket
— and every in-range pair has multiplicity at least `1` (hash-bucket
collisions never lose a true neighbor; they can, however, double-count one,
as the counterexample shows, so the unweighted brute-force equality of the
original claim fails). -/
theorem claim_C1 (s : Particles) (p : Particle) (tbl idxs : List ℕ)
    (hne : s.current_particles ≠ [])
    (hR : 0 < s.particle_effect_radius)
    (hp : p.id < s.id_count)
    (hall : ∀ q ∈ s.current_particles, q.id < s.id_count)
    (hm : s.attraction_matrix.length = s.id_count * s.id_count)
    (hbuild : buildIndex s.particle_effect_radius s.current_particles =
      some (tbl, idxs)) :
    totalForce s tbl idxs s.current_particles p =
      some (weightedRef s s.current_particles p) ∧
    (∀ o ∈ offsets27, ∀ j, j < s.current_particles.length →
      0 < Vec3.magnitude2 ((s.current_particles.getD j default).position -
        (p.position + offsetVec s.world_size o)) →
      Vec3.magnitude2 ((s.current_particles.getD j default).position -
        (p.position + offsetVec s.world_size o)) <
        s.particle_effect_radius * s.particle_effect_radius →
      1 ≤ bucketMult s.current_particles.length
        (cellCoord s.particle_effect_radius (p.position + offsetVec s.world_size o))
        (hashCell (cellCoord s.particle_effect_radius
          (s.current_particles.getD j default).position) %
          s.current_particles.length)) := by
  have hn : s.current_particles.length ≠ 0 := by
    intro h0
    exact hne (List.length_eq_zero.mp h0)
  obtain ⟨tbl', idxs', hbuild', hperm, hslices⟩ :=
    indexPermSlices s.particle_effect_radius s.current_particles hne
  rw [hbuild] at hbuild'
  have hpair := Option.some.inj hbuild'
  obtain ⟨rfl, rfl⟩ : tbl = tbl' ∧ idxs = idxs' :=
    ⟨congrArg Prod.fst hpair, congrArg Prod.snd hpair⟩
  constructor
  · rw [totalForce_total s tbl idxs s.current_particles p hn hp hall hm]
    congr 1
    unfold weightedRef
    apply congrArg List.sum
    apply List.map_congr_left
    intro o _
    exact regroup_generic s.current_particles.length hn tbl idxs
      (fun j => hashCell (cellCoord s.particle_effect_radius
        (s.current_particles.getD j default).position) % s.current_particles.length)
      (fun j => pairForceD s p (s.current_particles.getD j default)
        (offsetVec s.world_size o))
      (cellCoord s.particle_effect_radius (p.position + offsetVec s.world_size o))
      hslices
  · intro o _ j _ _ hRange
    apply bucketMult_pos
    exact cellCoord_mem_neighborhood s.particle_effect_radius hR _ _ hRange

theorem claim_C1_witness :
    (cfg2.current_particles ≠ [] ∧ 0 < cfg2.particle_effect_radius ∧
     partA.id < cfg2.id_count ∧ (∀ q ∈ cfg2.current_particles, q.id < cfg2.id_count) ∧
     cfg2.attraction_matrix.length = cfg2.id_count * cfg2.id_count ∧
     buildIndex cfg2.particle_effect_radius cfg2.current_particles =
       some ([0, 2, 2], [1, 0])) ∧
    (totalForce cfg2 [0, 2, 2] [1, 0] cfg2.current_particles partA =
      some (weightedRef cfg2 cfg2.current_particles partA) ∧
    (∀ o ∈ offsets27, ∀ j, j < cfg2.current_particles.length →
      0 < Vec3.magnitude2 ((cfg2.current_particles.getD j default).position -
        (partA.position + offsetVec cfg2.world_size o)) →
      Vec3.magnitude2 ((cfg2.current_particles.getD j default).position -
        (partA.position + offsetVec cfg2.world_size o)) <
        cfg2.particle_effect_radius * cfg2.particle_effect_radius →
      1 ≤ bucketMult cfg2.current_particles.length
        (cellCoord cfg2.particle_effect_radius
          (partA.position + offsetVec cfg2.world_size o))
        (hashCell (cellCoord cfg2.particle_effect_radius
          (cfg2.current_particles.getD j default).position) %
          cfg2.current_particles.length))) := by
  have hne : cfg2.current_particles ≠ [] := by simp [cfg2]
  have hR : (0 : ℚ) < cfg2.particle_effect_radius := by norm_num [cfg2]
  have hp : partA.id < cfg2.id_count := by simp [partA, cfg2]
  have hall : ∀ q ∈ cfg2.current_particles, q.id < cfg2.id_count := by
    intro q hq
    have hq2 : q = partA ∨ q = partB := by simpa [cfg2] using hq
    rcases hq2 with rfl | rfl <;> simp [partA, partB, cfg2]
  have hm : cfg2.attraction_matrix.length = cfg2.id_count * cfg2.id_count := rfl
  exact ⟨⟨hne, hR, hp, hall, hm, buildIndex_cfg2⟩,
    claim_C1 cfg2 partA [0, 2, 2] [1, 0] hne hR hp hall hm buildIndex_cfg2⟩
